import Mathlib

/-!
Verification of the core dependency-graph pipeline of `src/pr2-s1.py`.

Python strings are modelled as `List Char` (`Name`), Python dicts as
insertion-ordered association lists, and Python sets as lists observed only
through membership.  The stateful recursive traversal `dfs_build_graph` is
modelled with explicit state passing and a recursion-depth bound (`Option`
result, `none` = bound exhausted; a theorem below shows the chosen bound is
never exhausted), and `topological_sort`'s `while` loop likewise.
-/

set_option maxRecDepth 20000

/-- Python string model: a string is its list of characters. -/
abbrev Name := List Char

/-- Python's notion of whitespace for `str.strip` / `str.split()` / regex
`\s`, restricted to ASCII (the index format is ASCII). -/
def pyIsSpace (c : Char) : Bool :=
  c == ' ' || c == '\t' || c == '\n' || c == '\r' || c == '\x0b' || c == '\x0c'

/-- Does `n` occur at the start of `h`? (Python `str.startswith`, used to
define substring containment.) -/
def beginsWith : Name → Name → Bool
  | [], _ => true
  | _ :: _, [] => false
  | a :: as, b :: bs => a == b && beginsWith as bs

/-- Python substring test `n in h`. -/
def containsSeq (n : Name) : Name → Bool
  | [] => n.isEmpty
  | c :: t => beginsWith n (c :: t) || containsSeq n t

/-- Python `str.lower()` (ASCII). -/
def lowerName (n : Name) : Name := n.map Char.toLower

/-- The filter test used throughout the source:
`filter_substring and filter_substring.lower() in package.lower()`.
An empty filter string is falsy in Python, so it never matches. -/
def matchesFilter (filt pkg : Name) : Bool :=
  !filt.isEmpty && containsSeq (lowerName filt) (lowerName pkg)

/-- Python `str.strip()`: drop leading and trailing whitespace. -/
def pyStrip (l : Name) : Name :=
  ((l.dropWhile pyIsSpace).reverse.dropWhile pyIsSpace).reverse

/-- Split a char list at every char satisfying `p`, keeping empty pieces
(the behaviour of Python `str.split(sep)` for a one-char separator when
`p` tests equality with `sep`). -/
def splitOnP (p : Char → Bool) : Name → List Name
  | [] => [[]]
  | c :: t =>
    if p c then [] :: splitOnP p t
    else
      match splitOnP p t with
      | [] => [[c]]
      | h :: t2 => (c :: h) :: t2

/-- Python `str.split(sep)` for a single-char separator. -/
def splitOnChar (sep : Char) (l : Name) : List Name :=
  splitOnP (fun c => c == sep) l

/-- Python `str.split()` (no argument): whitespace-delimited tokens, empties
dropped. -/
def pySplitWs (l : Name) : List Name :=
  (splitOnP pyIsSpace l).filter (fun t => t ≠ [])

/-- First whitespace-delimited token of a stripped alternative:
`alt.strip().split()[0]`.  Callers guard `alt.strip()` nonempty, which makes
the token list nonempty, so the default is never produced. -/
def firstToken (alt : Name) : Name :=
  (pySplitWs (pyStrip alt)).headD []

/-- `extract_direct_dependencies` (src/pr2-s1.py lines 58-68).  Python's
final `list(set(dependencies))` enumerates a hash set in unspecified order;
the model fixes one duplicate-free order (`dedup`), and all claims about the
output are stated through membership. -/
def extract_direct_dependencies (depends_field : Name) : List Name :=
  if depends_field.isEmpty then []
  else
    ((splitOnChar ',' depends_field).foldl
      (fun deps dep_group =>
        match (splitOnChar '|' dep_group).filter (fun a => pyStrip a ≠ []) with
        | [] => deps
        | a :: _ => deps ++ [firstToken a])
      []).dedup

/-- Python dict lookup `m.get(k)` over an insertion-ordered association
list. -/
def dictLookup (m : List (Name × α)) (k : Name) : Option α :=
  (m.find? (fun e => decide (e.1 = k))).map (fun e => e.2)

/-- Python `graph.get(package, [])`. -/
def dictGetD (m : List (Name × List Name)) (k : Name) : List Name :=
  (dictLookup m k).getD []

/-- Python dict assignment `m[k] = v`: overwrite in place if the key exists
(keeping its insertion position), otherwise append. -/
def dictSet (m : List (Name × α)) (k : Name) (v : α) : List (Name × α) :=
  if (m.find? (fun e => decide (e.1 = k))).isSome then
    m.map (fun e => if e.1 = k then (e.1, v) else e)
  else m ++ [(k, v)]

/-- The separator `' -> '` of cycle-path rendering. -/
def cycleSep : Name := " -> ".data

/-- Python `' -> '.join(path)`. -/
def renderPath (l : List Name) : Name := (l.intersperse cycleSep).join

/-- The mutable state threaded through `dfs_build_graph`: the (read-only)
adjacency source plus the four in-place-mutated parameters
`visited`, `current_path`, `result`, `cycles_found`. -/
structure DfsState where
  graph : List (Name × List Name)
  visited : List Name
  path : List Name
  result : List (Name × List Name)
  cycles : List Name
deriving DecidableEq

/-- Line 107-110 of the source: render `current_path + [package]` and append
it to `cycles_found` unless that exact string is already recorded. -/
def recordCycle (pkg : Name) (st : DfsState) : DfsState :=
  let cp := renderPath (st.path ++ [pkg])
  if st.cycles.contains cp then st else { st with cycles := st.cycles ++ [cp] }

/-- Lines 117-122 of the source: mark `package` visited, push it on the
current path, and create its (initially empty) entry in `result` if absent. -/
def pushState (pkg : Name) (st : DfsState) : DfsState :=
  { st with
    visited := pkg :: st.visited
    path := st.path ++ [pkg]
    result :=
      if (st.result.find? (fun e => decide (e.1 = pkg))).isSome then st.result
      else st.result ++ [(pkg, [])] }

/-- Line 131 of the source: `result[package].append(dep)`.  The parent's
entry always exists at the call site (created by `pushState`). -/
def addEdge (parent d : Name) (st : DfsState) : DfsState :=
  { st with
    result := st.result.map (fun e => if e.1 = parent then (e.1, e.2 ++ [d]) else e) }

/-- The `for dep in dependencies` loop of `dfs_build_graph` (lines 126-131):
recursive call (whose return value Python discards; only the state mutation
matters), then the filter-guarded edge append. -/
def depsLoop (step : Name → DfsState → Option DfsState) (filt parent : Name) :
    List Name → DfsState → Option DfsState
  | [], st => some st
  | d :: ds, st =>
    match step d st with
    | none => none
    | some st1 =>
      depsLoop step filt parent ds
        (if matchesFilter filt d then st1 else addEdge parent d st1)

/-- The recursive body of `dfs_build_graph` (lines 101-134), with an explicit
recursion-depth bound (`none` = bound exhausted; `dfs_build_graph_total`
below shows the bound used by the wrapper always suffices). -/
def dfsAux (filt : Name) : Nat → Name → DfsState → Option DfsState
  | 0, _, _ => none
  | fuel + 1, pkg, st =>
    if matchesFilter filt pkg then some st
    else if st.path.contains pkg then some (recordCycle pkg st)
    else if st.visited.contains pkg then some st
    else
      match depsLoop (fun d st2 => dfsAux filt fuel d st2) filt pkg
          (dictGetD st.graph pkg) (pushState pkg st) with
      | none => none
      | some st2 => some { st2 with path := st2.path.dropLast }

/-- All names mentioned by the adjacency source; only these (plus the root)
can ever be visited, which bounds the recursion depth. -/
def relevantNames (graph : List (Name × List Name)) : List Name :=
  graph.map (fun e => e.1) ++ (graph.map (fun e => e.2)).join

/-- The recursion bound used by the top-level call: more than the number of
names the traversal can ever push. -/
def dfsFuelBound (graph : List (Name × List Name)) : Nat :=
  (relevantNames graph).length + 1

/-- Shape of the value returned by a top-level `dfs_build_graph` call: the
early returns (lines 103, 111, 115) yield the bare `result` dict, the normal
exit (line 134) yields the 2-tuple `(result, cycles_found)`. -/
inductive DfsReturn where
  | bare (result : List (Name × List Name))
  | pair (result : List (Name × List Name)) (cycles : List Name)
deriving DecidableEq

/-- The result dict carried by either return shape. -/
def retGraph : DfsReturn → List (Name × List Name)
  | DfsReturn.bare r => r
  | DfsReturn.pair r _ => r

/-- Fresh state of a top-level call (all four stateful defaults `None`). -/
def initState (graph : List (Name × List Name)) : DfsState :=
  { graph := graph, visited := [], path := [], result := [], cycles := [] }

/-- Top-level `dfs_build_graph(package, graph, filter_substring)` with the
stateful parameters at their defaults.  With fresh state the cycle and
visited early-returns cannot fire, so the bare-dict return happens exactly
when the root matches the filter. -/
def dfs_build_graph (package : Name) (graph : List (Name × List Name))
    (filt : Name) : Option DfsReturn :=
  if matchesFilter filt package then some (DfsReturn.bare [])
  else
    match dfsAux filt (dfsFuelBound graph) package (initState graph) with
    | none => none
    | some st => some (DfsReturn.pair st.result st.cycles)

/-- State of `topological_sort`'s Kahn loop (lines 136-171): the read-only
`graph`, the `in_degree` dict (Python ints, which may go negative), the
FIFO `queue`, and the output `result` order. -/
structure KState where
  graph : List (Name × List Name)
  inDeg : List (Name × Int)
  queue : List Name
  order : List Name
deriving DecidableEq

/-- Integer-valued dict lookup for `in_degree`. -/
def lookupInt (m : List (Name × Int)) (k : Name) : Option Int :=
  (m.find? (fun e => decide (e.1 = k))).map (fun e => e.2)

/-- `in_degree[dep] += 1` / `else: in_degree[dep] = 1` (lines 145-148). -/
def incrKey (m : List (Name × Int)) (k : Name) : List (Name × Int) :=
  if (m.find? (fun e => decide (e.1 = k))).isSome then
    m.map (fun e => if e.1 = k then (e.1, e.2 + 1) else e)
  else m ++ [(k, 1)]

/-- `in_degree[neighbor] -= 1` (line 166).  The key is always present at the
call site (every processed neighbour was counted at lines 143-148), so the
no-op on a missing key is unreachable. -/
def decrKey (m : List (Name × Int)) (k : Name) : List (Name × Int) :=
  m.map (fun e => if e.1 = k then (e.1, e.2 - 1) else e)

/-- Lines 138-148: every graph key starts at 0, then every dependency
occurrence increments (inserting new keys with 1). -/
def initInDeg (graph : List (Name × List Name)) : List (Name × Int) :=
  graph.foldl (fun m e => e.2.foldl incrKey m)
    (graph.map (fun e => (e.1, (0 : Int))))

/-- The `for neighbor in graph.get(node, [])` body (lines 165-169):
decrement, and on reaching exactly 0 enqueue unless filtered. -/
def processNeighbors (filt : Name) : List Name → KState → KState
  | [], st => st
  | d :: ds, st =>
    let st1 := { st with inDeg := decrKey st.inDeg d }
    processNeighbors filt ds
      (if lookupInt st1.inDeg d = some 0 then
        (if matchesFilter filt d then st1 else { st1 with queue := st1.queue ++ [d] })
      else st1)

/-- The `while queue` loop (lines 161-169), with an iteration bound
(`none` = bound exhausted; `topological_sort_total` below shows the bound
used by the wrapper always suffices). -/
def kahnLoop (filt : Name) : Nat → KState → Option KState
  | 0, st => if st.queue.isEmpty then some st else none
  | fuel + 1, st =>
    match st.queue with
    | [] => some st
    | node :: rest =>
      kahnLoop filt fuel
        (processNeighbors filt (dictGetD st.graph node)
          { st with queue := rest, order := st.order ++ [node] })

/-- `topological_sort(graph, start_node, filter_substring)`
(src/pr2-s1.py lines 136-171). -/
def topological_sort (graph : List (Name × List Name)) (start_node : Name)
    (filt : Name) : Option (List Name) :=
  let inDeg := initInDeg graph
  let queue : List Name := if lookupInt inDeg start_node = some 0 then [start_node] else []
  if matchesFilter filt start_node then some []
  else
    (kahnLoop filt (inDeg.length + 1)
      { graph := graph, inDeg := inDeg, queue := queue, order := [] }).map
      (fun st => st.order)

/-- Chars of a whitespace run that follow its last newline. -/
def afterLastNl (w : Name) : Name :=
  (w.reverse.takeWhile (fun c => c ≠ '\n')).reverse

/-- Worker for `re.split(r'\n\s*\n', text)`.  A separator match starts at the
leftmost newline whose following whitespace run contains another newline, and
greedily extends to the last newline of that run.  The step bound only
shrinks the scanned suffix, so `fuel = length` (used by `splitBlocks`) always
suffices and the exhaustion branch is unreachable. -/
def splitBlocksAux : Nat → Name → Name → List Name
  | _, cur, [] => [cur.reverse]
  | 0, cur, rest => [cur.reverse ++ rest]
  | fuel + 1, cur, c :: t =>
    if c = '\n' ∧ ((t.takeWhile pyIsSpace).contains '\n') then
      cur.reverse ::
        splitBlocksAux fuel []
          (afterLastNl (t.takeWhile pyIsSpace) ++ t.dropWhile pyIsSpace)
    else splitBlocksAux fuel (c :: cur) t

/-- `re.split(r'\n\s*\n', text)` (line 42 of the source). -/
def splitBlocks (text : Name) : List Name :=
  splitBlocksAux text.length [] text

/-- Lines 46-50 of the source: fold the lines of one block into the
`pkg_info` dict, skipping lines without a colon and splitting the rest on the
first colon, stripping key and value. -/
def blockInfo (block : Name) : List (Name × Name) :=
  (splitOnChar '\n' block).foldl
    (fun info line =>
      if line.contains ':' then
        dictSet info (pyStrip (line.takeWhile (fun c => c ≠ ':')))
          (pyStrip ((line.dropWhile (fun c => c ≠ ':')).tail))
      else info)
    []

/-- Lines 52-54 of the source: a block becomes an entry exactly when its
info dict has both `Package` and `Version`; the entry key is
`Package:Architecture` with architecture defaulting to `all`. -/
def processBlock (block : Name) : Option (Name × List (Name × Name)) :=
  let info := blockInfo block
  if (dictLookup info "Package".data).isSome ∧ (dictLookup info "Version".data).isSome then
    some
      ((dictLookup info "Package".data).getD [] ++
        ':' :: ((dictLookup info "Architecture".data).getD "all".data),
        info)
  else none

/-- `parse_packages_index(packages_data)` (src/pr2-s1.py lines 39-56). -/
def parse_packages_index (packages_data : Name) : List (Name × List (Name × Name)) :=
  (splitBlocks (pyStrip packages_data)).foldl
    (fun packages block =>
      match processBlock block with
      | some kv => dictSet packages kv.1 kv.2
      | none => packages)
    []

/-- Reachability along the adjacency source: the transitive closure of
`d ∈ graph.get(u, [])` from the root. -/
inductive Reaches (g : List (Name × List Name)) : Name → Name → Prop where
  | refl (n : Name) : Reaches g n n
  | tail {r u d : Name} : Reaches g r u → d ∈ dictGetD g u → Reaches g r d

/-- Structural well-formedness maintained by the traversal: the current path
is made of visited nodes, visited nodes are exactly the `result` keys,
`result` keys are distinct, and recorded cycles are distinct. -/
def DfsInv (st : DfsState) : Prop :=
  (∀ v ∈ st.path, v ∈ st.visited) ∧
  (∀ v ∈ st.visited, ∃ l, dictLookup st.result v = some l) ∧
  (∀ e ∈ st.result, e.1 ∈ st.visited) ∧
  (st.result.map (fun e => e.1)).Nodup ∧
  st.cycles.Nodup

/-- Every fully-expanded (visited, off-path) node's `result` entry is its
dependency list with filtered names removed. -/
def EntriesFinal (filt : Name) (st : DfsState) : Prop :=
  ∀ v ∈ st.visited, v ∉ st.path →
    dictLookup st.result v =
      some ((dictGetD st.graph v).filter (fun d => !matchesFilter filt d))

/-- Filter-matching names appear neither as `result` keys nor inside any
edge list. -/
def NoFilteredEntries (filt : Name) (st : DfsState) : Prop :=
  ∀ v, matchesFilter filt v = true →
    dictLookup st.result v = none ∧ ∀ e ∈ st.result, v ∉ e.2

/-- Every fully-expanded node's unfiltered dependencies have been visited. -/
def ClosedBlack (filt : Name) (st : DfsState) : Prop :=
  ∀ v ∈ st.visited, v ∉ st.path → ∀ d ∈ dictGetD st.graph v,
    matchesFilter filt d = false → d ∈ st.visited

/-- Any fully-expanded member of a two-node dependency cycle has a recorded
cycle string mentioning both members (stated for an inactive filter). -/
def BlackSafe (st : DfsState) : Prop :=
  ∀ A B : Name, B ∈ dictGetD st.graph A → A ∈ dictGetD st.graph B →
    A ∈ st.visited → A ∉ st.path →
    ∃ r ∈ st.cycles, containsSeq A r = true ∧ containsSeq B r = true

/-- Number of edges into `v` already accounted for by emitted nodes. -/
def resCnt (st : KState) (v : Name) : Nat :=
  (st.order.map (fun u => (dictGetD st.graph u).count v)).sum

/-- Total number of edge occurrences into `v` in the whole adjacency
source. -/
def totalIn (g : List (Name × List Name)) (v : Name) : Nat :=
  ((g.map (fun e => e.2)).join.count v)

/-- Loop-head invariant of the Kahn loop sufficient for safety/termination:
emitted and queued nodes are distinct and their in-degree counters have been
driven to zero or below. -/
def KahnMin (st : KState) : Prop :=
  (st.order ++ st.queue).Nodup ∧
  (∀ v ∈ st.order ++ st.queue, ∃ n : Int, lookupInt st.inDeg v = some n ∧ n ≤ 0)

/-- Full loop-head invariant of the Kahn loop over source graph `g`:
counter accounting, distinctness, and the dependent-before-dependency order
facts carried to the final output. -/
def KahnInv (g : List (Name × List Name)) (st : KState) : Prop :=
  st.graph = g ∧
  (∀ v, lookupInt st.inDeg v =
    (lookupInt (initInDeg g) v).map (fun n => n - (resCnt st v : Int))) ∧
  (st.order ++ st.queue).Nodup ∧
  (∀ v ∈ st.order ++ st.queue, ∃ n : Int, lookupInt st.inDeg v = some n ∧ n ≤ 0) ∧
  (∀ v ∈ st.queue, ∀ e ∈ g, v ∈ e.2 → e.1 ∈ st.order) ∧
  (∀ v ∈ st.order, ∀ e ∈ g, v ∈ e.2 → [e.1, v].Sublist st.order)

/-- What any nested traversal call preserves or grows: the graph and the
current path are restored, the visited set only grows, and recorded cycles
are never removed. -/
def StateLe (s s' : DfsState) : Prop :=
  s'.graph = s.graph ∧ s'.path = s.path ∧ s.visited ⊆ s'.visited ∧
  s.cycles ⊆ s'.cycles

/-! ### Helper lemmas: splitting and stripping -/

theorem splitOnP_ne_nil (p : Char → Bool) (l : Name) : splitOnP p l ≠ [] := by
  induction l with
  | nil => simp [splitOnP]
  | cons c t ih =>
    simp only [splitOnP]
    split
    · simp
    · cases h : splitOnP p t with
      | nil => simp
      | cons h2 t2 => simp

theorem mem_splitOnP {p : Char → Bool} {l t : Name} (ht : t ∈ splitOnP p l) :
    ∀ c ∈ t, p c = false := by
  induction l generalizing t with
  | nil =>
    simp only [splitOnP, List.mem_singleton] at ht
    subst ht; simp
  | cons c t0 ih =>
    simp only [splitOnP] at ht
    by_cases hc : p c = true
    · rw [if_pos hc] at ht
      rcases List.mem_cons.mp ht with h | h
      · subst h; simp
      · exact ih h
    · rw [if_neg hc] at ht
      cases hsp : splitOnP p t0 with
      | nil => exact absurd hsp (splitOnP_ne_nil p t0)
      | cons h2 t2 =>
        rw [hsp] at ht
        rcases List.mem_cons.mp ht with h | h
        · subst h
          intro x hx
          rcases List.mem_cons.mp hx with rfl | hx2
          · exact Bool.eq_false_iff.mpr hc
          · exact ih (hsp ▸ List.mem_cons_self h2 t2) x hx2
        · exact ih (hsp ▸ List.mem_cons_of_mem h2 h)

theorem head_dropWhile {p : Char → Bool} {l : Name} {c : Char} {t : Name}
    (h : l.dropWhile p = c :: t) : p c = false := by
  induction l with
  | nil => simp [List.dropWhile] at h
  | cons a l' ih =>
    rw [List.dropWhile_cons] at h
    by_cases ha : p a = true
    · rw [if_pos ha] at h; exact ih h
    · rw [if_neg ha] at h
      cases h; exact Bool.eq_false_iff.mpr ha

theorem dropWhile_concat_keep {p : Char → Bool} (a : Name) {c : Char}
    (hc : p c = false) : ∃ y, (a ++ [c]).dropWhile p = y ++ [c] := by
  induction a with
  | nil => exact ⟨[], by simp [List.dropWhile, hc]⟩
  | cons x a' ih =>
    by_cases hx : p x = true
    · simpa [List.dropWhile_cons, hx] using ih
    · exact ⟨x :: a', by simp [List.dropWhile_cons, hx]⟩

theorem pyStrip_first {l : Name} {c : Char} {t : Name}
    (h : pyStrip l = c :: t) : pyIsSpace c = false := by
  unfold pyStrip at h
  cases h1 : l.dropWhile pyIsSpace with
  | nil => rw [h1] at h; simp at h
  | cons c0 t0 =>
    have hc0 : pyIsSpace c0 = false := head_dropWhile h1
    rw [h1] at h
    obtain ⟨y, hy⟩ := dropWhile_concat_keep t0.reverse hc0 (p := pyIsSpace)
    rw [show (c0 :: t0).reverse = t0.reverse ++ [c0] by simp] at h
    rw [hy] at h
    simp only [List.reverse_append, List.reverse_cons, List.reverse_nil,
      List.nil_append, List.singleton_append] at h
    cases h
    exact hc0

theorem dropWhile_of_head_false {p : Char → Bool} {l : Name}
    (h : ∀ c ∈ l, p c = false) : l.dropWhile p = l := by
  cases l with
  | nil => rfl
  | cons c t =>
    rw [List.dropWhile_cons, if_neg]
    rw [h c (List.mem_cons_self c t)]
    simp

theorem pyStrip_of_no_space {l : Name} (h : ∀ c ∈ l, pyIsSpace c = false) :
    pyStrip l = l := by
  unfold pyStrip
  rw [dropWhile_of_head_false h, dropWhile_of_head_false, List.reverse_reverse]
  intro c hc
  exact h c (List.mem_reverse.mp hc)

theorem splitOnP_of_no_sep {p : Char → Bool} {l : Name}
    (h : ∀ c ∈ l, p c = false) : splitOnP p l = [l] := by
  induction l with
  | nil => rfl
  | cons c t ih =>
    have hc : p c = false := h c (List.mem_cons_self c t)
    simp only [splitOnP, hc]
    rw [ih (fun x hx => h x (List.mem_cons_of_mem c hx))]
    simp

theorem splitOnP_append_sep {p : Char → Bool} {u : Name} (v : Name) {s : Char}
    (hu : ∀ c ∈ u, p c = false) (hs : p s = true) :
    splitOnP p (u ++ s :: v) = u :: splitOnP p v := by
  induction u with
  | nil => simp [splitOnP, hs]
  | cons x u' ih =>
    have hx : p x = false := hu x (List.mem_cons_self x u')
    have ih' := ih (fun c hc => hu c (List.mem_cons_of_mem x hc))
    simp only [List.cons_append, splitOnP, hx, List.append_eq]
    rw [ih']
    simp

theorem firstToken_of_clean {a : Name} (hne : a ≠ [])
    (h : ∀ c ∈ a, pyIsSpace c = false) : firstToken a = a := by
  unfold firstToken pySplitWs
  rw [pyStrip_of_no_space h, splitOnP_of_no_sep h]
  simp [hne]

theorem firstToken_no_space {a : Name} (h : pyStrip a ≠ []) :
    firstToken a ≠ [] ∧ ∀ c ∈ firstToken a, pyIsSpace c = false := by
  cases hs : pyStrip a with
  | nil => exact absurd hs h
  | cons c t =>
    have hc : pyIsSpace c = false := pyStrip_first hs
    cases hsp : splitOnP pyIsSpace t with
    | nil => exact absurd hsp (splitOnP_ne_nil pyIsSpace t)
    | cons h2 t2 =>
      have heq : splitOnP pyIsSpace (c :: t) = (c :: h2) :: t2 := by
        simp [splitOnP, hc, hsp]
      have hmem : (c :: h2) ∈ splitOnP pyIsSpace (c :: t) := by
        rw [heq]; exact List.mem_cons_self _ _
      unfold firstToken pySplitWs
      rw [hs, heq]
      have hfil : ((c :: h2) :: t2).filter (fun b => decide (b ≠ [])) =
          (c :: h2) :: t2.filter (fun b => decide (b ≠ [])) := by
        simp
      rw [hfil]
      constructor
      · simp
      · intro x hx
        simp only [List.headD_cons] at hx
        exact mem_splitOnP hmem x hx

theorem foldl_mem_of_step {α β : Type} (step : List α → β → List α) (P : α → Prop)
    (hstep : ∀ acc g x, x ∈ step acc g → x ∈ acc ∨ P x) :
    ∀ (gs : List β) (acc : List α) (x : α), x ∈ gs.foldl step acc → x ∈ acc ∨ P x := by
  intro gs
  induction gs with
  | nil => intro acc x h; exact Or.inl h
  | cons g gs ih =>
    intro acc x h
    rcases ih (step acc g) x h with h2 | h2
    · exact hstep acc g x h2
    · exact Or.inr h2

theorem mem_extract {s t : Name} (ht : t ∈ extract_direct_dependencies s) :
    ∃ a, pyStrip a ≠ [] ∧ t = firstToken a := by
  unfold extract_direct_dependencies at ht
  by_cases hse : s.isEmpty = true
  · rw [if_pos hse] at ht; simp at ht
  · rw [if_neg hse] at ht
    rw [List.mem_dedup] at ht
    have key := foldl_mem_of_step
      (fun deps dep_group =>
        match (splitOnChar '|' dep_group).filter (fun a => pyStrip a ≠ []) with
        | [] => deps
        | a :: _ => deps ++ [firstToken a])
      (fun x => ∃ a, pyStrip a ≠ [] ∧ x = firstToken a)
      ?_ (splitOnChar ',' s) [] t ht
    · rcases key with h | h
      · simp at h
      · exact h
    · intro acc g x hx
      cases hm : (splitOnChar '|' g).filter (fun a => pyStrip a ≠ []) with
      | nil =>
        simp only [hm] at hx
        exact Or.inl hx
      | cons a rest =>
        simp only [hm] at hx
        rcases List.mem_append.mp hx with h | h
        · exact Or.inl h
        · right
          refine ⟨a, ?_, by simpa using h⟩
          have hmem : a ∈ (splitOnChar '|' g).filter (fun a => pyStrip a ≠ []) := by
            rw [hm]; exact List.mem_cons_self _ _
          have := List.of_mem_filter hmem
          simpa using this

/-- Claim C6 (corrected): `extract_direct_dependencies` CAN return names
containing parentheses (an alternative with no space before `(`) and names
wrapped in angle brackets (placeholders are not discarded), refuting the
claim as stated: the code cuts each alternative at whitespace only. -/
theorem extract_deps_paren_cex :
    extract_direct_dependencies "bar(>= 2.0)".data = ["bar(>=".data] ∧
    '(' ∈ "bar(>=".data ∧
    extract_direct_dependencies "<pkg:any>".data = ["<pkg:any>".data] := by
  decide

/-- Claim C6 (amended): for all input dependency expressions, every name
returned by `extract_direct_dependencies` is nonempty and contains no
whitespace character — each extracted name is the first alternative's first
whitespace-delimited token (which may retain parentheses or angle
brackets). -/
theorem extract_deps_no_whitespace :
    ∀ s t, t ∈ extract_direct_dependencies s →
      t ≠ [] ∧ ∀ c ∈ t, pyIsSpace c = false := by
  intro s t ht
  obtain ⟨a, ha, rfl⟩ := mem_extract ht
  exact firstToken_no_space ha

/-- Witness for `extract_deps_no_whitespace` at a concrete input. -/
theorem extract_deps_no_whitespace_witness :
    "bar".data ≠ [] ∧ ∀ c ∈ "bar".data, pyIsSpace c = false :=
  extract_deps_no_whitespace "bar (>= 2.0) | baz, qux".data "bar".data (by decide)

theorem splitOnChar_append_sep {u : Name} (v : Name) {s : Char}
    (hu : ∀ c ∈ u, (c == s) = false) :
    splitOnChar s (u ++ s :: v) = u :: splitOnChar s v :=
  splitOnP_append_sep v hu (by simp)

theorem splitOnChar_no_sep {u : Name} {s : Char}
    (hu : ∀ c ∈ u, (c == s) = false) : splitOnChar s u = [u] :=
  splitOnP_of_no_sep hu

/-- Claim C7 (confirmed): per comma-separated group only the first
`|`-alternative's bare name is extracted, deduplicated: for any plain names
`a`, `b`, `c` the expression `a|b, c` yields exactly `a` and `c`, and the
spec's scenario `bar (>= 2.0) | baz, qux` yields `bar` and `qux`. -/
theorem extract_deps_first_alternative :
    (∀ a b c : Name, a ≠ [] → c ≠ [] → a ≠ c →
      (∀ ch ∈ a, pyIsSpace ch = false ∧ ch ≠ ',' ∧ ch ≠ '|') →
      (∀ ch ∈ b, ch ≠ ',' ∧ ch ≠ '|') →
      (∀ ch ∈ c, pyIsSpace ch = false ∧ ch ≠ ',' ∧ ch ≠ '|') →
      extract_direct_dependencies (a ++ '|' :: b ++ ',' :: ' ' :: c) = [a, c]) ∧
    extract_direct_dependencies "bar (>= 2.0) | baz, qux".data =
      ["bar".data, "qux".data] := by
  constructor
  · intro a b c hane hcne hac hA hB hC
    have hne : (a ++ '|' :: b ++ ',' :: ' ' :: c).isEmpty = false := by
      cases a with
      | nil => exact absurd rfl hane
      | cons x xs => rfl
    have hsplit1 : splitOnChar ',' (a ++ '|' :: b ++ ',' :: ' ' :: c) =
        (a ++ '|' :: b) :: [' ' :: c] := by
      have hshape : a ++ '|' :: b ++ ',' :: ' ' :: c =
          (a ++ '|' :: b) ++ ',' :: ' ' :: c := by simp
      rw [hshape]
      rw [splitOnChar_append_sep (' ' :: c) ?_]
      · rw [splitOnChar_no_sep ?_]
        intro ch hch
        rcases List.mem_cons.mp hch with rfl | hch2
        · decide
        · simp [(hC ch hch2).2.1]
      · intro ch hch
        rcases List.mem_append.mp hch with h | h
        · simp [(hA ch h).2.1]
        · rcases List.mem_cons.mp h with rfl | h2
          · decide
          · simp [(hB ch h2).1]
    have hsplitg1 : splitOnChar '|' (a ++ '|' :: b) = [a, b] := by
      rw [splitOnChar_append_sep b (fun ch hch => by simp [(hA ch hch).2.2])]
      rw [splitOnChar_no_sep (fun ch hch => by simp [(hB ch hch).2])]
    have hstripa : pyStrip a = a := pyStrip_of_no_space (fun ch hch => (hA ch hch).1)
    have hstripc : pyStrip (' ' :: c) = c := by
      unfold pyStrip
      have h1 : (' ' :: c).dropWhile pyIsSpace = c := by
        rw [List.dropWhile_cons, if_pos (by decide)]
        exact dropWhile_of_head_false (fun x hx => (hC x hx).1)
      rw [h1, dropWhile_of_head_false, List.reverse_reverse]
      intro x hx
      exact (hC x (List.mem_reverse.mp hx)).1
    have hsplitg2 : splitOnChar '|' (' ' :: c) = [' ' :: c] := by
      refine splitOnChar_no_sep ?_
      intro ch hch
      rcases List.mem_cons.mp hch with rfl | h2
      · decide
      · simp [(hC ch h2).2.2]
    have hfilter1 : ([a, b]).filter (fun x => decide (pyStrip x ≠ [])) =
        a :: ([b]).filter (fun x => decide (pyStrip x ≠ [])) := by
      rw [List.filter_cons, if_pos]
      simp [hstripa, hane]
    have hfilter2 : ([' ' :: c]).filter (fun x => decide (pyStrip x ≠ [])) =
        [' ' :: c] := by
      rw [List.filter_cons, if_pos]
      · rfl
      · simp [hstripc, hcne]
    have htoka : firstToken a = a :=
      firstToken_of_clean hane (fun ch hch => (hA ch hch).1)
    have htokc : firstToken (' ' :: c) = c := by
      unfold firstToken pySplitWs
      rw [hstripc, splitOnP_of_no_sep (fun ch hch => (hC ch hch).1)]
      simp [hcne]
    unfold extract_direct_dependencies
    rw [if_neg (by simp [hne])]
    rw [hsplit1]
    simp only [List.foldl, hsplitg1, hsplitg2, hfilter1, hfilter2]
    simp only [List.nil_append, htoka, htokc]
    rw [show ([a] ++ [c] : List Name) = [a, c] from rfl]
    rw [List.dedup_cons_of_not_mem (by simp [hac])]
    simp
  · decide

/-- Witness for the universally quantified part of
`extract_deps_first_alternative` at concrete names. -/
theorem extract_deps_first_alternative_witness :
    extract_direct_dependencies ("a".data ++ '|' :: "b".data ++ ',' :: ' ' :: "c".data) =
      ["a".data, "c".data] :=
  extract_deps_first_alternative.1 "a".data "b".data "c".data (by decide)
    (by decide) (by decide) (by decide) (by decide) (by decide)

/-! ### Claim C3: return shape of the top-level call -/

/-- Claim C3 (code bug in the source): when the root package name matches
the filter substring, the top-level `dfs_build_graph` call returns the bare
result dict (`DfsReturn.bare`), not a `(result, cycles)` pair, so `main`'s
two-element unpacking of the return value fails on such inputs. -/
theorem dfs_build_graph_bare_on_filtered_root :
    dfs_build_graph "libfoo".data [] "lib".data = some (DfsReturn.bare []) := by
  decide

/-! ### Association-list lemmas -/

theorem dictLookup_cons {α : Type} (e : Name × α) (m : List (Name × α)) (v : Name) :
    dictLookup (e :: m) v = if e.1 = v then some e.2 else dictLookup m v := by
  by_cases he : e.1 = v
  · rw [if_pos he]
    unfold dictLookup
    rw [List.find?_cons_of_pos _ (by simp [he])]
    rfl
  · rw [if_neg he]
    unfold dictLookup
    rw [List.find?_cons_of_neg _ (by simp [he])]

theorem dictLookup_append_right_ne {α : Type} {m : List (Name × α)} {k v : Name}
    {x : α} (h : k ≠ v) : dictLookup (m ++ [(k, x)]) v = dictLookup m v := by
  induction m with
  | nil => simp [dictLookup_cons, dictLookup, h, List.find?]
  | cons e m' ih =>
    rw [List.cons_append, dictLookup_cons, dictLookup_cons]
    by_cases he : e.1 = v
    · rw [if_pos he, if_pos he]
    · rw [if_neg he, if_neg he]
      exact ih

theorem dictLookup_append_self {α : Type} {m : List (Name × α)} {k : Name} {x : α}
    (h : dictLookup m k = none) :
    dictLookup (m ++ [(k, x)]) k = some x := by
  induction m with
  | nil => simp [dictLookup, List.find?]
  | cons e m' ih =>
    rw [dictLookup_cons] at h
    rw [List.cons_append, dictLookup_cons]
    by_cases he : e.1 = k
    · rw [if_pos he] at h; exact absurd h (by simp)
    · rw [if_neg he] at h
      rw [if_neg he]
      exact ih h

theorem dictLookup_modify_ne {α : Type} {m : List (Name × α)} {parent v : Name}
    {f : α → α} (h : parent ≠ v) :
    dictLookup (m.map (fun e => if e.1 = parent then (e.1, f e.2) else e)) v =
      dictLookup m v := by
  induction m with
  | nil => rfl
  | cons e m' ih =>
    rw [List.map_cons, dictLookup_cons, dictLookup_cons]
    by_cases hep : e.1 = parent
    · rw [if_pos hep]
      have hev : ¬ e.1 = v := by rw [hep]; exact h
      rw [if_neg hev, if_neg hev]
      exact ih
    · rw [if_neg hep]
      by_cases hev : e.1 = v
      · rw [if_pos hev, if_pos hev]
      · rw [if_neg hev, if_neg hev]
        exact ih

theorem dictLookup_modify_self {α : Type} {m : List (Name × α)} {parent : Name}
    {f : α → α} :
    dictLookup (m.map (fun e => if e.1 = parent then (e.1, f e.2) else e)) parent =
      (dictLookup m parent).map f := by
  induction m with
  | nil => rfl
  | cons e m' ih =>
    rw [List.map_cons]
    by_cases hep : e.1 = parent
    · rw [if_pos hep, dictLookup_cons, dictLookup_cons,
        if_pos (show ((e.1, f e.2) : Name × α).1 = parent from hep), if_pos hep]
      simp
    · rw [if_neg hep, dictLookup_cons, dictLookup_cons, if_neg hep, if_neg hep]
      exact ih

theorem dictLookup_keys_none {α : Type} {m : List (Name × α)} {v : Name}
    (h : ∀ e ∈ m, e.1 ≠ v) : dictLookup m v = none := by
  induction m with
  | nil => rfl
  | cons e m' ih =>
    rw [dictLookup_cons, if_neg (h e (List.mem_cons_self e m'))]
    exact ih (fun e2 he2 => h e2 (List.mem_cons_of_mem e he2))

theorem dictLookup_isSome_mem {α : Type} {m : List (Name × α)} {v : Name} {x : α}
    (h : dictLookup m v = some x) : (v, x) ∈ m := by
  induction m with
  | nil => simp [dictLookup, List.find?] at h
  | cons e m' ih =>
    rw [dictLookup_cons] at h
    by_cases he : e.1 = v
    · rw [if_pos he] at h
      injection h with h
      have hev : e = (v, x) := by
        cases e
        simp only at he h
        rw [he, h]
      rw [← hev]
      exact List.mem_cons_self e m'
    · rw [if_neg he] at h
      exact List.mem_cons_of_mem e (ih h)

/-! ### DFS traversal invariant machinery -/

theorem depsLoop_ind (step : Name → DfsState → Option DfsState) (filt parent : Name)
    (P : DfsState → Prop) (R : DfsState → DfsState → Prop)
    (hrefl : ∀ s, R s s)
    (htrans : ∀ {s1 s2 s3 : DfsState}, R s1 s2 → R s2 s3 → R s1 s3)
    (hstep : ∀ d s s', step d s = some s' → P s → P s' ∧ R s s')
    (hedge : ∀ d s, P s → matchesFilter filt d = false →
      P (addEdge parent d s) ∧ R s (addEdge parent d s)) :
    ∀ ds s s', P s → depsLoop step filt parent ds s = some s' → P s' ∧ R s s' := by
  intro ds
  induction ds with
  | nil =>
    intro s s' hP h
    simp only [depsLoop] at h
    injection h with h
    subst h
    exact ⟨hP, hrefl s⟩
  | cons d ds ih =>
    intro s s' hP h
    simp only [depsLoop] at h
    cases hst : step d s with
    | none => rw [hst] at h; exact absurd h (by simp)
    | some s1 =>
      simp only [hst] at h
      obtain ⟨hP1, hR1⟩ := hstep d s s1 hst hP
      by_cases hf : matchesFilter filt d = true
      · rw [if_pos hf] at h
        obtain ⟨hP2, hR2⟩ := ih s1 s' hP1 h
        exact ⟨hP2, htrans hR1 hR2⟩
      · rw [if_neg hf] at h
        obtain ⟨hPe, hRe⟩ := hedge d s1 hP1 (by simpa using hf)
        obtain ⟨hP2, hR2⟩ := ih _ s' hPe h
        exact ⟨hP2, htrans hR1 (htrans hRe hR2)⟩

theorem stateLe_refl (s : DfsState) : StateLe s s :=
  ⟨rfl, rfl, List.Subset.refl _, List.Subset.refl _⟩

theorem stateLe_trans {s1 s2 s3 : DfsState} (h1 : StateLe s1 s2)
    (h2 : StateLe s2 s3) : StateLe s1 s3 :=
  ⟨h2.1.trans h1.1, h2.2.1.trans h1.2.1,
    h1.2.2.1.trans h2.2.2.1, h1.2.2.2.trans h2.2.2.2⟩

theorem recordCycle_stateLe (pkg : Name) (s : DfsState) :
    StateLe s (recordCycle pkg s) := by
  unfold recordCycle
  by_cases h : s.cycles.contains (renderPath (s.path ++ [pkg])) = true
  · rw [if_pos h]; exact stateLe_refl s
  · rw [if_neg h]
    exact ⟨rfl, rfl, List.Subset.refl _, List.subset_append_left _ _⟩

theorem dfsAux_stateLe (filt : Name) :
    ∀ fuel pkg s s', dfsAux filt fuel pkg s = some s' → StateLe s s' := by
  intro fuel
  induction fuel with
  | zero => intro pkg s s' h; exact absurd h (by simp [dfsAux])
  | succ fuel ih =>
    intro pkg s s' h
    unfold dfsAux at h
    by_cases hf : matchesFilter filt pkg = true
    · rw [if_pos hf] at h
      injection h with h
      subst h
      exact stateLe_refl s
    · rw [if_neg hf] at h
      by_cases hp : s.path.contains pkg = true
      · rw [if_pos hp] at h
        injection h with h
        subst h
        exact recordCycle_stateLe pkg s
      · rw [if_neg hp] at h
        by_cases hv : s.visited.contains pkg = true
        · rw [if_pos hv] at h
          injection h with h
          subst h
          exact stateLe_refl s
        · rw [if_neg hv] at h
          cases hloop : depsLoop (fun d st2 => dfsAux filt fuel d st2) filt pkg
              (dictGetD s.graph pkg) (pushState pkg s) with
          | none => rw [hloop] at h; exact absurd h (by simp)
          | some s2 =>
            rw [hloop] at h
            injection h with h
            subst h
            have hle : StateLe (pushState pkg s) s2 := by
              refine (depsLoop_ind _ filt pkg (fun _ => True) StateLe
                stateLe_refl stateLe_trans ?_ ?_ _ _ _ trivial hloop).2
              · intro d s3 s3' hst _
                exact ⟨trivial, ih d s3 s3' hst⟩
              · intro d s3 _ _
                exact ⟨trivial, ⟨rfl, rfl, List.Subset.refl _, List.Subset.refl _⟩⟩
            refine ⟨hle.1, ?_, ?_, ?_⟩
            · show s2.path.dropLast = s.path
              rw [hle.2.1]
              show (s.path ++ [pkg]).dropLast = s.path
              simp
            · intro v hv2
              exact hle.2.2.1 (List.mem_cons_of_mem pkg hv2)
            · exact hle.2.2.2

theorem name_contains_iff {l : List Name} {a : Name} :
    l.contains a = true ↔ a ∈ l := by
  induction l with
  | nil => simp
  | cons c t ih =>
    simp only [List.contains_cons]
    constructor
    · intro h
      rcases Bool.or_eq_true_iff.mp h with h2 | h2
      · exact (by simpa using h2 : a = c) ▸ List.mem_cons_self c t
      · exact List.mem_cons_of_mem c (ih.mp h2)
    · intro h
      rcases List.mem_cons.mp h with rfl | h2
      · simp
      · exact Bool.or_eq_true_iff.mpr (Or.inr (ih.mpr h2))

theorem dfsAux_protect (filt : Name) :
    ∀ fuel pkg s s' v, v ∈ s.visited →
      dfsAux filt fuel pkg s = some s' →
      dictLookup s'.result v = dictLookup s.result v := by
  intro fuel
  induction fuel with
  | zero => intro pkg s s' v _ h; exact absurd h (by simp [dfsAux])
  | succ fuel ih =>
    intro pkg s s' v hvmem h
    unfold dfsAux at h
    by_cases hf : matchesFilter filt pkg = true
    · rw [if_pos hf] at h
      injection h with h
      subst h
      rfl
    · rw [if_neg hf] at h
      by_cases hp : s.path.contains pkg = true
      · rw [if_pos hp] at h
        injection h with h
        subst h
        unfold recordCycle
        by_cases hc : s.cycles.contains (renderPath (s.path ++ [pkg])) = true
        · rw [if_pos hc]
        · rw [if_neg hc]
      · rw [if_neg hp] at h
        by_cases hv : s.visited.contains pkg = true
        · rw [if_pos hv] at h
          injection h with h
          subst h
          rfl
        · rw [if_neg hv] at h
          have hpkgv : pkg ≠ v := by
            intro hh
            subst hh
            exact hv (name_contains_iff.mpr hvmem)
          cases hloop : depsLoop (fun d st2 => dfsAux filt fuel d st2) filt pkg
              (dictGetD s.graph pkg) (pushState pkg s) with
          | none => rw [hloop] at h; exact absurd h (by simp)
          | some s2 =>
            rw [hloop] at h
            injection h with h
            subst h
            have hpush : dictLookup (pushState pkg s).result v = dictLookup s.result v := by
              unfold pushState
              by_cases hfind : (s.result.find? (fun e => decide (e.1 = pkg))).isSome = true
              · rw [if_pos hfind]
              · rw [if_neg hfind]
                exact dictLookup_append_right_ne hpkgv
            have key := depsLoop_ind _ filt pkg (fun s3 => v ∈ s3.visited)
              (fun s3 s3' => dictLookup s3'.result v = dictLookup s3.result v)
              (fun _ => rfl) (fun h1 h2 => h2.trans h1) ?_ ?_
              (dictGetD s.graph pkg) (pushState pkg s) s2
              (List.mem_cons_of_mem pkg hvmem) hloop
            · show dictLookup s2.result v = dictLookup s.result v
              exact key.2.trans hpush
            · intro d s3 s3' hst hv3
              exact ⟨(dfsAux_stateLe filt fuel d s3 s3' hst).2.2.1 hv3,
                ih d s3 s3' v hv3 hst⟩
            · intro d s3 hv3 _
              refine ⟨hv3, ?_⟩
              show dictLookup
                (s3.result.map (fun e => if e.1 = pkg then (e.1, e.2 ++ [d]) else e)) v =
                dictLookup s3.result v
              exact @dictLookup_modify_ne _ s3.result pkg v (fun l => l ++ [d]) hpkgv

theorem modify_keys {α : Type} (m : List (Name × α)) (parent : Name) (f : α → α) :
    (m.map (fun e => if e.1 = parent then (e.1, f e.2) else e)).map (fun e => e.1) =
      m.map (fun e => e.1) := by
  induction m with
  | nil => rfl
  | cons e m' ih =>
    by_cases hep : e.1 = parent
    · simp only [List.map_cons, if_pos hep, ih]
    · simp only [List.map_cons, if_neg hep, ih]

theorem addEdge_inv {parent d : Name} {s : DfsState} (hs : DfsInv s) :
    DfsInv (addEdge parent d s) := by
  obtain ⟨h1, h2, h3, h4, h5⟩ := hs
  refine ⟨h1, ?_, ?_, ?_, h5⟩
  · intro v hv
    obtain ⟨l, hl⟩ := h2 v hv
    by_cases hvp : v = parent
    · subst hvp
      refine ⟨l ++ [d], ?_⟩
      show dictLookup
        (s.result.map (fun e => if e.1 = v then (e.1, e.2 ++ [d]) else e)) v = _
      rw [@dictLookup_modify_self _ s.result v (fun l2 => l2 ++ [d]), hl]
      rfl
    · refine ⟨l, ?_⟩
      show dictLookup
        (s.result.map (fun e => if e.1 = parent then (e.1, e.2 ++ [d]) else e)) v = _
      rw [@dictLookup_modify_ne _ s.result parent v (fun l2 => l2 ++ [d])
        (fun hh => hvp hh.symm), hl]
  · intro e he
    show e.1 ∈ s.visited
    obtain ⟨e0, he0, heq⟩ := List.mem_map.mp he
    have : e.1 = e0.1 := by
      rw [← heq]
      by_cases h : e0.1 = parent
      · rw [if_pos h]
      · rw [if_neg h]
    rw [this]
    exact h3 e0 he0
  · show ((addEdge parent d s).result.map (fun e => e.1)).Nodup
    have hres : (addEdge parent d s).result =
        s.result.map (fun e => if e.1 = parent then (e.1, e.2 ++ [d]) else e) := rfl
    rw [hres, @modify_keys _ s.result parent (fun l2 => l2 ++ [d])]
    exact h4

theorem recordCycle_inv {pkg : Name} {s : DfsState} (hs : DfsInv s) :
    DfsInv (recordCycle pkg s) := by
  obtain ⟨h1, h2, h3, h4, h5⟩ := hs
  unfold recordCycle
  by_cases hc : s.cycles.contains (renderPath (s.path ++ [pkg])) = true
  · rw [if_pos hc]; exact ⟨h1, h2, h3, h4, h5⟩
  · rw [if_neg hc]
    refine ⟨h1, h2, h3, h4, ?_⟩
    show (s.cycles ++ [renderPath (s.path ++ [pkg])]).Nodup
    have hnot : renderPath (s.path ++ [pkg]) ∉ s.cycles := by
      intro hmem
      exact hc (name_contains_iff.mpr hmem)
    simp [List.nodup_append, h5, hnot]

theorem pushState_inv {pkg : Name} {s : DfsState} (hs : DfsInv s)
    (hnv : pkg ∉ s.visited) : DfsInv (pushState pkg s) := by
  obtain ⟨h1, h2, h3, h4, h5⟩ := hs
  have hnokey : dictLookup s.result pkg = none := by
    cases hl : dictLookup s.result pkg with
    | none => rfl
    | some l => exact absurd (h3 _ (dictLookup_isSome_mem hl)) hnv
  have hfind : (s.result.find? (fun e => decide (e.1 = pkg))).isSome = false := by
    cases hf : s.result.find? (fun e => decide (e.1 = pkg)) with
    | none => rfl
    | some e =>
      exfalso
      unfold dictLookup at hnokey
      rw [hf] at hnokey
      simp at hnokey
  unfold pushState
  rw [if_neg (by simp [hfind])]
  refine ⟨?_, ?_, ?_, ?_, h5⟩
  · intro v hv
    rcases List.mem_append.mp hv with h | h
    · exact List.mem_cons_of_mem pkg (h1 v h)
    · simp only [List.mem_singleton] at h
      subst h
      exact List.mem_cons_self v _
  · intro v hv
    rcases List.mem_cons.mp hv with rfl | h
    · exact ⟨[], dictLookup_append_self hnokey⟩
    · obtain ⟨l, hl⟩ := h2 v h
      have hvne : pkg ≠ v := fun hh => hnv (hh ▸ h)
      exact ⟨l, by rw [dictLookup_append_right_ne hvne]; exact hl⟩
  · intro e he
    rcases List.mem_append.mp he with h | h
    · exact List.mem_cons_of_mem pkg (h3 e h)
    · simp only [List.mem_singleton] at h
      subst h
      exact List.mem_cons_self pkg _
  · rw [List.map_append]
    have hnkey : pkg ∉ s.result.map (fun e => e.1) := by
      intro hmem
      obtain ⟨e, he, heq⟩ := List.mem_map.mp hmem
      exact hnv (heq ▸ h3 e he)
    simp [List.nodup_append, h4, hnkey]

theorem dfsAux_inv (filt : Name) :
    ∀ fuel pkg s s', DfsInv s → dfsAux filt fuel pkg s = some s' → DfsInv s' := by
  intro fuel
  induction fuel with
  | zero => intro pkg s s' _ h; exact absurd h (by simp [dfsAux])
  | succ fuel ih =>
    intro pkg s s' hs h
    unfold dfsAux at h
    by_cases hf : matchesFilter filt pkg = true
    · rw [if_pos hf] at h
      injection h with h
      subst h
      exact hs
    · rw [if_neg hf] at h
      by_cases hp : s.path.contains pkg = true
      · rw [if_pos hp] at h
        injection h with h
        subst h
        exact recordCycle_inv hs
      · rw [if_neg hp] at h
        by_cases hv : s.visited.contains pkg = true
        · rw [if_pos hv] at h
          injection h with h
          subst h
          exact hs
        · rw [if_neg hv] at h
          have hnv : pkg ∉ s.visited := fun hmem => hv (name_contains_iff.mpr hmem)
          cases hloop : depsLoop (fun d st2 => dfsAux filt fuel d st2) filt pkg
              (dictGetD s.graph pkg) (pushState pkg s) with
          | none => rw [hloop] at h; exact absurd h (by simp)
          | some s2 =>
            rw [hloop] at h
            injection h with h
            subst h
            have hinv2 : DfsInv s2 := by
              refine (depsLoop_ind _ filt pkg DfsInv (fun _ _ => True)
                (fun _ => trivial) (fun _ _ => trivial) ?_ ?_
                _ _ _ (pushState_inv hs hnv) hloop).1
              · intro d s3 s3' hst h3
                exact ⟨ih d s3 s3' h3 hst, trivial⟩
              · intro d s3 h3 _
                exact ⟨addEdge_inv h3, trivial⟩
            obtain ⟨g1, g2, g3, g4, g5⟩ := hinv2
            refine ⟨?_, g2, g3, g4, g5⟩
            intro v hv2
            exact g1 v (List.dropLast_subset _ hv2)

theorem depsLoop_stateLe (filt parent : Name) (fuel : Nat) :
    ∀ ds s s',
      depsLoop (fun d st2 => dfsAux filt fuel d st2) filt parent ds s = some s' →
      StateLe s s' := by
  intro ds s s' h
  refine (depsLoop_ind _ filt parent (fun _ => True) StateLe
    stateLe_refl stateLe_trans ?_ ?_ ds s s' trivial h).2
  · intro d s3 s3' hst _
    exact ⟨trivial, dfsAux_stateLe filt fuel d s3 s3' hst⟩
  · intro d s3 _ _
    exact ⟨trivial, ⟨rfl, rfl, List.Subset.refl _, List.Subset.refl _⟩⟩

theorem dfsAux_visits (filt : Name) :
    ∀ fuel pkg s s', DfsInv s → matchesFilter filt pkg = false →
      dfsAux filt fuel pkg s = some s' → pkg ∈ s'.visited := by
  intro fuel pkg s s' hinv hnf h
  cases fuel with
  | zero => exact absurd h (by simp [dfsAux])
  | succ fuel =>
    unfold dfsAux at h
    rw [if_neg (by simp [hnf])] at h
    by_cases hp : s.path.contains pkg = true
    · rw [if_pos hp] at h
      injection h with h
      subst h
      have hmem : pkg ∈ s.visited := hinv.1 pkg (name_contains_iff.mp hp)
      unfold recordCycle
      by_cases hc : s.cycles.contains (renderPath (s.path ++ [pkg])) = true
      · rw [if_pos hc]; exact hmem
      · rw [if_neg hc]; exact hmem
    · rw [if_neg hp] at h
      by_cases hv : s.visited.contains pkg = true
      · rw [if_pos hv] at h
        injection h with h
        subst h
        exact name_contains_iff.mp hv
      · rw [if_neg hv] at h
        cases hloop : depsLoop (fun d st2 => dfsAux filt fuel d st2) filt pkg
            (dictGetD s.graph pkg) (pushState pkg s) with
        | none => rw [hloop] at h; exact absurd h (by simp)
        | some s2 =>
          rw [hloop] at h
          injection h with h
          subst h
          show pkg ∈ s2.visited
          exact (depsLoop_stateLe filt pkg fuel _ _ _ hloop).2.2.1
            (List.mem_cons_self pkg s.visited)

theorem depsLoop_visits (filt parent : Name) (fuel : Nat) :
    ∀ ds s s', DfsInv s →
      depsLoop (fun d st2 => dfsAux filt fuel d st2) filt parent ds s = some s' →
      ∀ d ∈ ds, matchesFilter filt d = false → d ∈ s'.visited := by
  intro ds
  induction ds with
  | nil => intro s s' _ _ d hd; exact absurd hd (by simp)
  | cons d0 ds ih =>
    intro s s' hinv h d hd hnf
    simp only [depsLoop] at h
    cases hst : dfsAux filt fuel d0 s with
    | none => rw [hst] at h; exact absurd h (by simp)
    | some s1 =>
      simp only [hst] at h
      have hinv1 : DfsInv s1 := dfsAux_inv filt fuel d0 s s1 hinv hst
      rcases List.mem_cons.mp hd with rfl | hd2
      · have hd0v : d ∈ s1.visited := dfsAux_visits filt fuel d s s1 hinv hnf hst
        by_cases hfd : matchesFilter filt d = true
        · rw [if_pos hfd] at h
          exact (depsLoop_stateLe filt parent fuel ds _ _ h).2.2.1 hd0v
        · rw [if_neg hfd] at h
          exact (depsLoop_stateLe filt parent fuel ds _ _ h).2.2.1 hd0v
      · by_cases hfd : matchesFilter filt d0 = true
        · rw [if_pos hfd] at h
          exact ih s1 s' hinv1 h d hd2 hnf
        · rw [if_neg hfd] at h
          exact ih _ s' (addEdge_inv hinv1) h d hd2 hnf

theorem list_toFinset_mono {l l' : List Name} (h : l ⊆ l') :
    l.toFinset ⊆ l'.toFinset := by
  intro x hx
  rw [List.mem_toFinset] at hx ⊢
  exact h hx

theorem depsLoop_total (filt parent : Name) (fuel : Nat)
    (ihfuel : ∀ pkg s,
      ((relevantNames s.graph).toFinset \ s.visited.toFinset).card < fuel →
      (dfsAux filt fuel pkg s).isSome = true) :
    ∀ ds s,
      ((relevantNames s.graph).toFinset \ s.visited.toFinset).card < fuel →
      (depsLoop (fun d st2 => dfsAux filt fuel d st2) filt parent ds s).isSome = true := by
  intro ds
  induction ds with
  | nil => intro s _; simp [depsLoop]
  | cons d ds ih =>
    intro s hcard
    simp only [depsLoop]
    cases hst : dfsAux filt fuel d s with
    | none =>
      exfalso
      have := ihfuel d s hcard
      rw [hst] at this
      exact absurd this (by simp)
    | some s1 =>
      simp only
      have hle : StateLe s s1 := dfsAux_stateLe filt fuel d s s1 hst
      have hcard1 :
          ((relevantNames s1.graph).toFinset \ s1.visited.toFinset).card < fuel := by
        rw [hle.1]
        refine lt_of_le_of_lt (Finset.card_le_card
          (Finset.sdiff_subset_sdiff (Finset.Subset.refl _)
            (list_toFinset_mono hle.2.2.1))) hcard
      by_cases hfd : matchesFilter filt d = true
      · rw [if_pos hfd]
        exact ih s1 hcard1
      · rw [if_neg hfd]
        refine ih _ ?_
        show ((relevantNames (addEdge parent d s1).graph).toFinset \
          (addEdge parent d s1).visited.toFinset).card < fuel
        exact hcard1

theorem dfsAux_total (filt : Name) :
    ∀ fuel pkg s,
      ((relevantNames s.graph).toFinset \ s.visited.toFinset).card < fuel →
      (dfsAux filt fuel pkg s).isSome = true := by
  intro fuel
  induction fuel with
  | zero => intro pkg s h; omega
  | succ fuel ih =>
    intro pkg s hcard
    unfold dfsAux
    by_cases hf : matchesFilter filt pkg = true
    · rw [if_pos hf]; rfl
    · rw [if_neg hf]
      by_cases hp : s.path.contains pkg = true
      · rw [if_pos hp]; rfl
      · rw [if_neg hp]
        by_cases hv : s.visited.contains pkg = true
        · rw [if_pos hv]; rfl
        · rw [if_neg hv]
          cases hds : dictGetD s.graph pkg with
          | nil =>
            simp [depsLoop]
          | cons d0 ds0 =>
            have hlk : dictLookup s.graph pkg = some (d0 :: ds0) := by
              cases hl : dictLookup s.graph pkg with
              | none => unfold dictGetD at hds; rw [hl] at hds; simp at hds
              | some l => unfold dictGetD at hds; rw [hl] at hds; simp at hds; rw [hds]
            have hrel : pkg ∈ relevantNames s.graph := by
              unfold relevantNames
              refine List.mem_append_left _ ?_
              exact List.mem_map.mpr ⟨(pkg, d0 :: ds0), dictLookup_isSome_mem hlk, rfl⟩
            have hnv : pkg ∉ s.visited := fun hmem => hv (name_contains_iff.mpr hmem)
            have hcard1 :
                ((relevantNames (pushState pkg s).graph).toFinset \
                  (pushState pkg s).visited.toFinset).card < fuel := by
              show ((relevantNames s.graph).toFinset \
                (pkg :: s.visited).toFinset).card < fuel
              rw [List.toFinset_cons, Finset.sdiff_insert]
              have hmem : pkg ∈ (relevantNames s.graph).toFinset \ s.visited.toFinset := by
                rw [Finset.mem_sdiff, List.mem_toFinset, List.mem_toFinset]
                exact ⟨hrel, hnv⟩
              rw [Finset.card_erase_of_mem hmem]
              have hpos : 0 < ((relevantNames s.graph).toFinset \ s.visited.toFinset).card :=
                Finset.card_pos.mpr ⟨pkg, hmem⟩
              omega
            have hloop := depsLoop_total filt pkg fuel (fun p s2 h => ih p s2 h)
              (d0 :: ds0) (pushState pkg s) hcard1
            cases hl2 : depsLoop (fun d st2 => dfsAux filt fuel d st2) filt pkg
                (d0 :: ds0) (pushState pkg s) with
            | none => rw [hl2] at hloop; exact absurd hloop (by simp)
            | some s2 => rfl

/-- The recursion bound chosen by the top-level wrapper is never exhausted:
`dfs_build_graph` always returns a value (the traversal terminates on every
input). -/
theorem dfs_build_graph_total (package : Name) (graph : List (Name × List Name))
    (filt : Name) : (dfs_build_graph package graph filt).isSome = true := by
  unfold dfs_build_graph
  by_cases hf : matchesFilter filt package = true
  · rw [if_pos hf]; rfl
  · rw [if_neg hf]
    have hcard :
        ((relevantNames (initState graph).graph).toFinset \
          (initState graph).visited.toFinset).card < dfsFuelBound graph := by
      show ((relevantNames graph).toFinset \ ([] : List Name).toFinset).card <
        dfsFuelBound graph
      rw [List.toFinset_nil, Finset.sdiff_empty]
      exact lt_of_le_of_lt (List.toFinset_card_le _) (Nat.lt_succ_self _)
    have := dfsAux_total filt (dfsFuelBound graph) package (initState graph) hcard
    cases hres : dfsAux filt (dfsFuelBound graph) package (initState graph) with
    | none => rw [hres] at this; exact absurd this (by simp)
    | some st => rfl

theorem pushState_lookup_ne {pkg v : Name} {s : DfsState} (hne : pkg ≠ v) :
    dictLookup (pushState pkg s).result v = dictLookup s.result v := by
  unfold pushState
  by_cases hfind : (s.result.find? (fun e => decide (e.1 = pkg))).isSome = true
  · rw [if_pos hfind]
  · rw [if_neg hfind]
    exact dictLookup_append_right_ne hne

theorem pushState_lookup_self {pkg : Name} {s : DfsState} (hinv : DfsInv s)
    (hnv : pkg ∉ s.visited) :
    dictLookup (pushState pkg s).result pkg = some [] := by
  have hnokey : dictLookup s.result pkg = none := by
    cases hl : dictLookup s.result pkg with
    | none => rfl
    | some l => exact absurd (hinv.2.2.1 _ (dictLookup_isSome_mem hl)) hnv
  have hfind : (s.result.find? (fun e => decide (e.1 = pkg))).isSome = false := by
    cases hf : s.result.find? (fun e => decide (e.1 = pkg)) with
    | none => rfl
    | some e =>
      exfalso
      unfold dictLookup at hnokey
      rw [hf] at hnokey
      simp at hnokey
  unfold pushState
  rw [if_neg (by simp [hfind])]
  exact dictLookup_append_self hnokey

theorem addEdge_lookup_self {parent d : Name} {s : DfsState} {acc : List Name}
    (h : dictLookup s.result parent = some acc) :
    dictLookup (addEdge parent d s).result parent = some (acc ++ [d]) := by
  show dictLookup
    (s.result.map (fun e => if e.1 = parent then (e.1, e.2 ++ [d]) else e)) parent = _
  rw [@dictLookup_modify_self _ s.result parent (fun l => l ++ [d]), h]
  rfl

theorem depsLoop_accum (filt pkg : Name) (fuel : Nat) :
    ∀ ds s s' acc, pkg ∈ s.visited →
      dictLookup s.result pkg = some acc →
      depsLoop (fun d st2 => dfsAux filt fuel d st2) filt pkg ds s = some s' →
      dictLookup s'.result pkg =
        some (acc ++ ds.filter (fun d => !matchesFilter filt d)) := by
  intro ds
  induction ds with
  | nil =>
    intro s s' acc _ hacc h
    simp only [depsLoop] at h
    injection h with h
    subst h
    simpa using hacc
  | cons d ds ih =>
    intro s s' acc hv hacc h
    simp only [depsLoop] at h
    cases hst : dfsAux filt fuel d s with
    | none => rw [hst] at h; exact absurd h (by simp)
    | some s1 =>
      simp only [hst] at h
      have hle : StateLe s s1 := dfsAux_stateLe filt fuel d s s1 hst
      have hv1 : pkg ∈ s1.visited := hle.2.2.1 hv
      have hacc1 : dictLookup s1.result pkg = some acc :=
        (dfsAux_protect filt fuel d s s1 pkg hv hst).trans hacc
      by_cases hfd : matchesFilter filt d = true
      · rw [if_pos hfd] at h
        rw [List.filter_cons, if_neg (by simp [hfd])]
        exact ih s1 s' acc hv1 hacc1 h
      · rw [if_neg hfd] at h
        rw [List.filter_cons, if_pos (by simp [hfd])]
        have hacc2 : dictLookup (addEdge pkg d s1).result pkg = some (acc ++ [d]) :=
          addEdge_lookup_self hacc1
        have hv2 : pkg ∈ (addEdge pkg d s1).visited := hv1
        have := ih (addEdge pkg d s1) s' (acc ++ [d]) hv2 hacc2 h
        rw [this]
        simp

theorem dfsAux_entries (filt : Name) :
    ∀ fuel pkg s s', DfsInv s → EntriesFinal filt s →
      dfsAux filt fuel pkg s = some s' → EntriesFinal filt s' := by
  intro fuel
  induction fuel with
  | zero => intro pkg s s' _ _ h; exact absurd h (by simp [dfsAux])
  | succ fuel ih =>
    intro pkg s s' hinv hent h
    unfold dfsAux at h
    by_cases hf : matchesFilter filt pkg = true
    · rw [if_pos hf] at h
      injection h with h
      subst h
      exact hent
    · rw [if_neg hf] at h
      by_cases hp : s.path.contains pkg = true
      · rw [if_pos hp] at h
        injection h with h
        subst h
        have hrc : (recordCycle pkg s).visited = s.visited ∧
            (recordCycle pkg s).path = s.path ∧
            (recordCycle pkg s).result = s.result ∧
            (recordCycle pkg s).graph = s.graph := by
          unfold recordCycle
          by_cases hc : s.cycles.contains (renderPath (s.path ++ [pkg])) = true
          · rw [if_pos hc]; exact ⟨rfl, rfl, rfl, rfl⟩
          · rw [if_neg hc]; exact ⟨rfl, rfl, rfl, rfl⟩
        intro v hv hnp
        rw [hrc.1] at hv
        rw [hrc.2.1] at hnp
        show dictLookup (recordCycle pkg s).result v =
          some ((dictGetD (recordCycle pkg s).graph v).filter
            (fun d => !matchesFilter filt d))
        rw [hrc.2.2.1, hrc.2.2.2]
        exact hent v hv hnp
      · rw [if_neg hp] at h
        by_cases hvst : s.visited.contains pkg = true
        · rw [if_pos hvst] at h
          injection h with h
          subst h
          exact hent
        · rw [if_neg hvst] at h
          have hnv : pkg ∉ s.visited := fun hmem => hvst (name_contains_iff.mpr hmem)
          cases hloop : depsLoop (fun d st2 => dfsAux filt fuel d st2) filt pkg
              (dictGetD s.graph pkg) (pushState pkg s) with
          | none => rw [hloop] at h; exact absurd h (by simp)
          | some s2 =>
            rw [hloop] at h
            injection h with h
            subst h
            have hent1 : EntriesFinal filt (pushState pkg s) := by
              intro v hv hnp
              rcases List.mem_cons.mp hv with rfl | hv2
              · exact absurd (List.mem_append_right _ (List.mem_singleton.mpr rfl)) hnp
              · have hne : pkg ≠ v := fun hh => hnv (hh ▸ hv2)
                have hnp2 : v ∉ s.path := fun hh =>
                  hnp (List.mem_append_left _ hh)
                rw [pushState_lookup_ne hne]
                exact hent v hv2 hnp2
            have hkey := depsLoop_ind _ filt pkg
              (fun s3 => DfsInv s3 ∧ EntriesFinal filt s3 ∧ pkg ∈ s3.path ∧
                s3.graph = s.graph)
              (fun _ _ => True) (fun _ => trivial) (fun _ _ => trivial) ?_ ?_
              _ _ _ ⟨pushState_inv hinv hnv, hent1,
                List.mem_append_right _ (List.mem_singleton.mpr rfl), rfl⟩ hloop
            · obtain ⟨hinv2, hent2, hmem2, hg2⟩ := hkey.1
              have hle : StateLe (pushState pkg s) s2 :=
                depsLoop_stateLe filt pkg fuel _ _ _ hloop
              have hpath2 : s2.path = s.path ++ [pkg] := hle.2.1
              have hpkg2 : dictLookup s2.result pkg =
                  some ((dictGetD s.graph pkg).filter (fun d => !matchesFilter filt d)) := by
                have := depsLoop_accum filt pkg fuel (dictGetD s.graph pkg)
                  (pushState pkg s) s2 [] (List.mem_cons_self pkg s.visited)
                  (pushState_lookup_self hinv hnv) hloop
                simpa using this
              intro v hv hnp
              show dictLookup s2.result v = some ((dictGetD s2.graph v).filter _)
              have hnp2 : v ∉ s2.path ∨ v = pkg := by
                by_cases hvp : v = pkg
                · exact Or.inr hvp
                · left
                  rw [hpath2]
                  intro hmem
                  rcases List.mem_append.mp hmem with hmem2 | hmem2
                  · exact hnp (by
                      show v ∈ s2.path.dropLast
                      rw [hpath2]
                      simpa using hmem2)
                  · exact hvp (List.mem_singleton.mp hmem2)
              rcases hnp2 with hnp2 | rfl
              · exact hent2 v hv hnp2
              · rw [hg2, hpkg2]
            · intro d s3 s3' hst h3
              refine ⟨⟨dfsAux_inv filt fuel d s3 s3' h3.1 hst,
                ih d s3 s3' h3.1 h3.2.1 hst, ?_, ?_⟩, trivial⟩
              · rw [(dfsAux_stateLe filt fuel d s3 s3' hst).2.1]
                exact h3.2.2.1
              · rw [(dfsAux_stateLe filt fuel d s3 s3' hst).1]
                exact h3.2.2.2
            · intro d s3 h3 hnfd
              refine ⟨⟨addEdge_inv h3.1, ?_, h3.2.2.1, h3.2.2.2⟩, trivial⟩
              intro v hv hnp
              have hne : pkg ≠ v := fun hh => hnp (hh ▸ h3.2.2.1)
              show dictLookup
                (s3.result.map (fun e => if e.1 = pkg then (e.1, e.2 ++ [d]) else e)) v =
                some ((dictGetD s3.graph v).filter _)
              rw [@dictLookup_modify_ne _ s3.result pkg v (fun l => l ++ [d]) hne]
              exact h3.2.1 v hv hnp

theorem recordCycle_fields (pkg : Name) (s : DfsState) :
    (recordCycle pkg s).visited = s.visited ∧ (recordCycle pkg s).path = s.path ∧
    (recordCycle pkg s).result = s.result ∧ (recordCycle pkg s).graph = s.graph := by
  unfold recordCycle
  by_cases hc : s.cycles.contains (renderPath (s.path ++ [pkg])) = true
  · rw [if_pos hc]; exact ⟨rfl, rfl, rfl, rfl⟩
  · rw [if_neg hc]; exact ⟨rfl, rfl, rfl, rfl⟩

theorem dfsAux_nofiltered (filt : Name) :
    ∀ fuel pkg s s', NoFilteredEntries filt s →
      dfsAux filt fuel pkg s = some s' → NoFilteredEntries filt s' := by
  intro fuel
  induction fuel with
  | zero => intro pkg s s' _ h; exact absurd h (by simp [dfsAux])
  | succ fuel ih =>
    intro pkg s s' hs h
    unfold dfsAux at h
    by_cases hf : matchesFilter filt pkg = true
    · rw [if_pos hf] at h
      injection h with h
      subst h
      exact hs
    · rw [if_neg hf] at h
      by_cases hp : s.path.contains pkg = true
      · rw [if_pos hp] at h
        injection h with h
        subst h
        intro v hmv
        rw [show (recordCycle pkg s).result = s.result from (recordCycle_fields pkg s).2.2.1]
        exact hs v hmv
      · rw [if_neg hp] at h
        by_cases hvst : s.visited.contains pkg = true
        · rw [if_pos hvst] at h
          injection h with h
          subst h
          exact hs
        · rw [if_neg hvst] at h
          cases hloop : depsLoop (fun d st2 => dfsAux filt fuel d st2) filt pkg
              (dictGetD s.graph pkg) (pushState pkg s) with
          | none => rw [hloop] at h; exact absurd h (by simp)
          | some s2 =>
            rw [hloop] at h
            injection h with h
            subst h
            have hpush : NoFilteredEntries filt (pushState pkg s) := by
              intro v hmv
              have hne : pkg ≠ v := by
                intro hh
                subst hh
                rw [hmv] at hf
                exact hf rfl
              obtain ⟨hl, he⟩ := hs v hmv
              constructor
              · rw [pushState_lookup_ne hne]
                exact hl
              · intro e hemem
                show v ∉ e.2
                revert hemem
                unfold pushState
                by_cases hfind : (s.result.find? (fun e => decide (e.1 = pkg))).isSome = true
                · rw [if_pos hfind]
                  intro hemem
                  exact he e hemem
                · rw [if_neg hfind]
                  intro hemem
                  rcases List.mem_append.mp hemem with h2 | h2
                  · exact he e h2
                  · rw [List.mem_singleton.mp h2]
                    simp
            have hloopinv := depsLoop_ind _ filt pkg (NoFilteredEntries filt)
              (fun _ _ => True) (fun _ => trivial) (fun _ _ => trivial) ?_ ?_
              _ _ _ hpush hloop
            · intro v hmv
              obtain ⟨hl, he⟩ := hloopinv.1 v hmv
              exact ⟨hl, he⟩
            · intro d s3 s3' hst h3
              exact ⟨ih d s3 s3' h3 hst, trivial⟩
            · intro d s3 h3 hnfd
              refine ⟨?_, trivial⟩
              intro v hmv
              have hnev : pkg ≠ v := by
                intro hh
                subst hh
                rw [hmv] at hf
                exact hf rfl
              obtain ⟨hl, he⟩ := h3 v hmv
              constructor
              · show dictLookup
                  (s3.result.map (fun e => if e.1 = pkg then (e.1, e.2 ++ [d]) else e)) v =
                  none
                rw [@dictLookup_modify_ne _ s3.result pkg v (fun l => l ++ [d]) hnev]
                exact hl
              · intro e hemem
                obtain ⟨e0, he0, heq⟩ := List.mem_map.mp hemem
                have hdv : v ≠ d := by
                  intro hh
                  subst hh
                  rw [hmv] at hnfd
                  exact absurd hnfd (by simp)
                by_cases h0 : e0.1 = pkg
                · rw [if_pos h0] at heq
                  rw [← heq]
                  show v ∉ e0.2 ++ [d]
                  intro hmem
                  rcases List.mem_append.mp hmem with h2 | h2
                  · exact he e0 he0 h2
                  · exact hdv (List.mem_singleton.mp h2)
                · rw [if_neg h0] at heq
                  rw [← heq]
                  exact he e0 he0

theorem initState_inv (graph : List (Name × List Name)) : DfsInv (initState graph) := by
  refine ⟨?_, ?_, ?_, ?_, ?_⟩
  · intro v hv
    exact absurd hv (by simp [initState])
  · intro v hv
    exact absurd hv (by simp [initState])
  · intro e he
    exact absurd he (by simp [initState])
  · show (([] : List (Name × List Name)).map (fun e => e.1)).Nodup
    simp
  · show ([] : List Name).Nodup
    simp

theorem dfs_build_graph_pair {package : Name} {graph : List (Name × List Name)}
    {filt : Name} {res : List (Name × List Name)} {cyc : List Name}
    (h : dfs_build_graph package graph filt = some (DfsReturn.pair res cyc)) :
    ∃ st : DfsState,
      dfsAux filt (dfsFuelBound graph) package (initState graph) = some st ∧
      st.result = res ∧ st.cycles = cyc ∧ st.graph = graph ∧ st.path = [] ∧
      DfsInv st ∧ EntriesFinal filt st ∧ NoFilteredEntries filt st ∧
      matchesFilter filt package = false := by
  unfold dfs_build_graph at h
  by_cases hf : matchesFilter filt package = true
  · rw [if_pos hf] at h
    simp at h
  · rw [if_neg hf] at h
    cases hres : dfsAux filt (dfsFuelBound graph) package (initState graph) with
    | none => rw [hres] at h; simp at h
    | some st =>
      rw [hres] at h
      injection h with h
      have hpair : st.result = res ∧ st.cycles = cyc := by
        constructor
        · injection h
        · injection h
      have hle : StateLe (initState graph) st :=
        dfsAux_stateLe filt (dfsFuelBound graph) package (initState graph) st hres
      refine ⟨st, rfl, hpair.1, hpair.2, ?_, ?_, ?_, ?_, ?_, by simpa using hf⟩
      · rw [hle.1]; rfl
      · rw [hle.2.1]; rfl
      · exact dfsAux_inv filt (dfsFuelBound graph) package (initState graph) st
          (initState_inv graph) hres
      · refine dfsAux_entries filt (dfsFuelBound graph) package (initState graph) st
          (initState_inv graph) ?_ hres
        intro v hv
        exact absurd hv (by simp [initState])
      · refine dfsAux_nofiltered filt (dfsFuelBound graph) package (initState graph) st
          ?_ hres
        intro v hmv
        exact ⟨rfl, fun e he => absurd he (by simp [initState])⟩

/-- Claim C2 (counterexample): for the two-node cycle `A: B / B: A` with root
`A`, the built graph is `{A:[B], B:[A]}` — the edge into the on-stack node IS
inserted — not the claimed `{A:[], B:[]}`. -/
theorem dfs_cycle_edge_cex :
    dfs_build_graph "A".data [("A".data, ["B".data]), ("B".data, ["A".data])] [] =
      some (DfsReturn.pair [("A".data, ["B".data]), ("B".data, ["A".data])]
        ["A -> B -> A".data]) ∧
    DfsReturn.pair [("A".data, ["B".data]), ("B".data, ["A".data])]
        ["A -> B -> A".data] ≠
      DfsReturn.pair [("A".data, []), ("B".data, [])] ["A -> B -> A".data] := by
  decide

/-- Claim C2 (amended): cycle detection suppresses only the recursive
descent, never the edge: in the finished graph every entry's list is exactly
its source dependency list with only filter-matching names removed, and the
`A: B / B: A` scenario yields `{A:[B], B:[A]}` with the single cycle record
`A -> B -> A`. -/
theorem dfs_edges_inserted_despite_cycles :
    (∀ graph filt root res cyc,
      dfs_build_graph root graph filt = some (DfsReturn.pair res cyc) →
      ∀ P l, dictLookup res P = some l →
        l = (dictGetD graph P).filter (fun d => !matchesFilter filt d)) ∧
    dfs_build_graph "A".data [("A".data, ["B".data]), ("B".data, ["A".data])] [] =
      some (DfsReturn.pair [("A".data, ["B".data]), ("B".data, ["A".data])]
        ["A -> B -> A".data]) := by
  constructor
  · intro graph filt root res cyc h P l hl
    obtain ⟨st, _, hres, _, hgraph, hpath, hinv, hent, _, _⟩ := dfs_build_graph_pair h
    rw [← hres] at hl
    have hPv : P ∈ st.visited := hinv.2.2.1 (P, l) (dictLookup_isSome_mem hl)
    have hPnp : P ∉ st.path := by rw [hpath]; simp
    have := hent P hPv hPnp
    rw [hl, hgraph] at this
    injection this with this
  · decide

/-- Witness for the universal part of `dfs_edges_inserted_despite_cycles`. -/
theorem dfs_edges_inserted_despite_cycles_witness :
    ["B".data] = (dictGetD [("A".data, ["B".data]), ("B".data, ["A".data])] "A".data).filter
      (fun d => !matchesFilter [] d) :=
  dfs_edges_inserted_despite_cycles.1
    [("A".data, ["B".data]), ("B".data, ["A".data])] [] "A".data
    [("A".data, ["B".data]), ("B".data, ["A".data])] ["A -> B -> A".data]
    (by decide) "A".data ["B".data] (by decide)

/-- Claim C5 (counterexample): for `R: X / X: Y / Y: X` rooted at `R`, the
stored cycle record is `R -> X -> Y -> X` — the whole current path from the
traversal root — not the claimed path starting at the first occurrence of the
repeated package (`X -> Y -> X`). -/
theorem dfs_cycle_record_cex :
    dfs_build_graph "R".data [("R".data, ["X".data]), ("X".data, ["Y".data]),
        ("Y".data, ["X".data])] [] =
      some (DfsReturn.pair [("R".data, ["X".data]), ("X".data, ["Y".data]),
        ("Y".data, ["X".data])] ["R -> X -> Y -> X".data]) ∧
    ("R -> X -> Y -> X".data : Name) ≠
      renderPath ["X".data, "Y".data, "X".data] := by
  decide

/-- Claim C5 (amended): when `dfs_build_graph` meets a package already on the
current path stack, the recorded CycleRecord is the rendering of the ENTIRE
current path (from the traversal root) closed by repeating that package,
appended only if that exact string is new; in the scenario above the record
is `R -> X -> Y -> X`. -/
theorem dfs_cycle_record_full_path :
    (∀ filt fuel pkg s, matchesFilter filt pkg = false → pkg ∈ s.path →
      dfsAux filt (fuel + 1) pkg s =
        some (if s.cycles.contains (renderPath (s.path ++ [pkg])) then s
          else { s with cycles := s.cycles ++ [renderPath (s.path ++ [pkg])] })) ∧
    dfs_build_graph "R".data [("R".data, ["X".data]), ("X".data, ["Y".data]),
        ("Y".data, ["X".data])] [] =
      some (DfsReturn.pair [("R".data, ["X".data]), ("X".data, ["Y".data]),
        ("Y".data, ["X".data])] ["R -> X -> Y -> X".data]) := by
  constructor
  · intro filt fuel pkg s hnf hmem
    unfold dfsAux
    rw [if_neg (by simp [hnf]), if_pos (name_contains_iff.mpr hmem)]
    rfl
  · decide

/-- Witness for the universal part of `dfs_cycle_record_full_path`. -/
theorem dfs_cycle_record_full_path_witness :
    dfsAux [] 1 "X".data
        (DfsState.mk [] [] ["R".data, "X".data, "Y".data] [] []) =
      some (DfsState.mk [] [] ["R".data, "X".data, "Y".data] []
        ["R -> X -> Y -> X".data]) := by
  have h := dfs_cycle_record_full_path.1 [] 0 "X".data
    (DfsState.mk [] [] ["R".data, "X".data, "Y".data] [] []) (by decide) (by decide)
  rw [h]
  decide

/-- Claim C8 (confirmed): any name matching the active filter substring
(case-insensitively) is absent from the returned graph's key set and from
every edge list. -/
theorem dfs_filtered_absent :
    ∀ graph filt root N ret, matchesFilter filt N = true →
      dfs_build_graph root graph filt = some ret →
      dictLookup (retGraph ret) N = none ∧ ∀ e ∈ retGraph ret, N ∉ e.2 := by
  intro graph filt root N ret hmN h
  cases ret with
  | bare r =>
    unfold dfs_build_graph at h
    by_cases hf : matchesFilter filt root = true
    · rw [if_pos hf] at h
      injection h with h
      injection h with h
      subst h
      exact ⟨rfl, fun e he => absurd he (by simp [retGraph])⟩
    · rw [if_neg hf] at h
      cases hres : dfsAux filt (dfsFuelBound graph) root (initState graph) with
      | none => rw [hres] at h; simp at h
      | some st =>
        rw [hres] at h
        injection h with h
        exact DfsReturn.noConfusion h
  | pair r c =>
    obtain ⟨st, _, hres, _, _, _, _, _, hnf, _⟩ := dfs_build_graph_pair h
    obtain ⟨hl, he⟩ := hnf N hmN
    rw [← hres]
    exact ⟨hl, he⟩

/-- Witness for `dfs_filtered_absent` at a concrete filtered graph. -/
theorem dfs_filtered_absent_witness :
    dictLookup (retGraph (DfsReturn.pair [("A".data, [])] [])) "LIBX".data = none ∧
    ∀ e ∈ retGraph (DfsReturn.pair [("A".data, [])] []), "LIBX".data ∉ e.2 :=
  dfs_filtered_absent [("A".data, ["LIBX".data]), ("LIBX".data, [])] "lib".data
    "A".data "LIBX".data (DfsReturn.pair [("A".data, [])] []) (by decide) (by decide)

/-! ### Kahn loop basics -/

theorem processNeighbors_graph_order (filt : Name) :
    ∀ ds st, (processNeighbors filt ds st).graph = st.graph ∧
      (processNeighbors filt ds st).order = st.order := by
  intro ds
  induction ds with
  | nil => intro st; exact ⟨rfl, rfl⟩
  | cons d ds ih =>
    intro st
    simp only [processNeighbors]
    by_cases h0 : lookupInt (decrKey st.inDeg d) d = some 0
    · rw [if_pos h0]
      by_cases hfd : matchesFilter filt d = true
      · rw [if_pos hfd]
        exact ih _
      · rw [if_neg hfd]
        exact ih _
    · rw [if_neg h0]
      exact ih _

theorem kahnLoop_graph (filt : Name) :
    ∀ fuel s s', kahnLoop filt fuel s = some s' → s'.graph = s.graph := by
  intro fuel
  induction fuel with
  | zero =>
    intro s s' h
    unfold kahnLoop at h
    by_cases hq : s.queue.isEmpty = true
    · rw [if_pos hq] at h
      injection h with h
      subst h
      rfl
    · rw [if_neg hq] at h
      exact absurd h (by simp)
  | succ fuel ih =>
    intro s s' h
    unfold kahnLoop at h
    cases hq : s.queue with
    | nil =>
      rw [hq] at h
      injection h with h
      subst h
      rfl
    | cons node rest =>
      rw [hq] at h
      have := ih _ _ h
      rw [this]
      exact (processNeighbors_graph_order filt _ _).1

/-- Claim C10 (confirmed): neither traversal mutates the input adjacency
mapping: every step of `dfs_build_graph`'s recursion and of
`topological_sort`'s Kahn loop carries the graph through unchanged (the
source only ever reads it via `graph.get`). -/
theorem dfs_topo_preserve_graph :
    (∀ filt fuel pkg s s', dfsAux filt fuel pkg s = some s' → s'.graph = s.graph) ∧
    (∀ filt fuel s s', kahnLoop filt fuel s = some s' → s'.graph = s.graph) :=
  ⟨fun filt fuel pkg s s' h => (dfsAux_stateLe filt fuel pkg s s' h).1,
    fun filt fuel s s' h => kahnLoop_graph filt fuel s s' h⟩

/-- Witness for `dfs_topo_preserve_graph` at a concrete run. -/
theorem dfs_topo_preserve_graph_witness :
    (DfsState.mk [("A".data, [])] ["A".data] [] [("A".data, [])] []).graph =
      (initState [("A".data, [])]).graph :=
  dfs_topo_preserve_graph.1 [] 2 "A".data (initState [("A".data, [])])
    (DfsState.mk [("A".data, [])] ["A".data] [] [("A".data, [])] []) (by decide)

/-! ### Reachability closure and two-cycle reporting -/

theorem matchesFilter_nil (pkg : Name) : matchesFilter [] pkg = false := rfl

theorem dfsAux_closed (filt : Name) :
    ∀ fuel pkg s s', DfsInv s → ClosedBlack filt s →
      dfsAux filt fuel pkg s = some s' → ClosedBlack filt s' := by
  intro fuel
  induction fuel with
  | zero => intro pkg s s' _ _ h; exact absurd h (by simp [dfsAux])
  | succ fuel ih =>
    intro pkg s s' hinv hcl h
    unfold dfsAux at h
    by_cases hf : matchesFilter filt pkg = true
    · rw [if_pos hf] at h
      injection h with h
      subst h
      exact hcl
    · rw [if_neg hf] at h
      by_cases hp : s.path.contains pkg = true
      · rw [if_pos hp] at h
        injection h with h
        subst h
        intro v hv hnp d hd hnfd
        rw [(recordCycle_fields pkg s).1] at hv ⊢
        rw [(recordCycle_fields pkg s).2.1] at hnp
        rw [show (recordCycle pkg s).graph = s.graph from
          (recordCycle_fields pkg s).2.2.2] at hd
        exact hcl v hv hnp d hd hnfd
      · rw [if_neg hp] at h
        by_cases hvst : s.visited.contains pkg = true
        · rw [if_pos hvst] at h
          injection h with h
          subst h
          exact hcl
        · rw [if_neg hvst] at h
          have hnv : pkg ∉ s.visited := fun hmem => hvst (name_contains_iff.mpr hmem)
          cases hloop : depsLoop (fun d st2 => dfsAux filt fuel d st2) filt pkg
              (dictGetD s.graph pkg) (pushState pkg s) with
          | none => rw [hloop] at h; exact absurd h (by simp)
          | some s2 =>
            rw [hloop] at h
            injection h with h
            subst h
            have hcl1 : ClosedBlack filt (pushState pkg s) := by
              intro v hv hnp d hd hnfd
              rcases List.mem_cons.mp hv with rfl | hv2
              · exact absurd (List.mem_append_right _ (List.mem_singleton.mpr rfl)) hnp
              · have hnp2 : v ∉ s.path := fun hh => hnp (List.mem_append_left _ hh)
                exact List.mem_cons_of_mem pkg (hcl v hv2 hnp2 d hd hnfd)
            have hloopinv := depsLoop_ind _ filt pkg
              (fun s3 => DfsInv s3 ∧ ClosedBlack filt s3) (fun _ _ => True)
              (fun _ => trivial) (fun _ _ => trivial) ?_ ?_
              _ _ _ ⟨pushState_inv hinv hnv, hcl1⟩ hloop
            · obtain ⟨hinv2, hcl2⟩ := hloopinv.1
              have hle : StateLe (pushState pkg s) s2 :=
                depsLoop_stateLe filt pkg fuel _ _ _ hloop
              have hpath2 : s2.path = s.path ++ [pkg] := hle.2.1
              have hgr2 : s2.graph = s.graph := hle.1
              intro v hv hnp d hd hnfd
              have hnp' : v ∉ s.path := by
                intro hh
                apply hnp
                show v ∈ s2.path.dropLast
                rw [hpath2]
                simpa using hh
              by_cases hvp : v = pkg
              · subst hvp
                refine depsLoop_visits filt v fuel _ _ _ (pushState_inv hinv hnv)
                  hloop d ?_ hnfd
                show d ∈ dictGetD s.graph v
                rw [show dictGetD s2.graph v = dictGetD s.graph v from by rw [hgr2]] at hd
                exact hd
              · have hnp2 : v ∉ s2.path := by
                  rw [hpath2]
                  intro hh
                  rcases List.mem_append.mp hh with h2 | h2
                  · exact hnp' h2
                  · exact hvp (List.mem_singleton.mp h2)
                exact hcl2 v hv hnp2 d hd hnfd
            · intro d s3 s3' hst h3
              exact ⟨⟨dfsAux_inv filt fuel d s3 s3' h3.1 hst,
                ih d s3 s3' h3.1 h3.2 hst⟩, trivial⟩
            · intro d s3 h3 _
              exact ⟨⟨addEdge_inv h3.1, h3.2⟩, trivial⟩

theorem dfs_reaches_visited {graph : List (Name × List Name)} {root : Name}
    {st : DfsState}
    (hres : dfsAux [] (dfsFuelBound graph) root (initState graph) = some st) :
    ∀ n, Reaches graph root n → n ∈ st.visited := by
  have hle : StateLe (initState graph) st :=
    dfsAux_stateLe [] (dfsFuelBound graph) root (initState graph) st hres
  have hgr : st.graph = graph := by rw [hle.1]; rfl
  have hpath : st.path = [] := by rw [hle.2.1]; rfl
  have hcl : ClosedBlack [] st := by
    refine dfsAux_closed [] (dfsFuelBound graph) root (initState graph) st
      (initState_inv graph) ?_ hres
    intro v hv
    exact absurd hv (by simp [initState])
  intro n hn
  induction hn with
  | refl =>
    exact dfsAux_visits [] (dfsFuelBound graph) root (initState graph) st
      (initState_inv graph) (matchesFilter_nil root) hres
  | tail hru hd ih =>
    refine hcl _ ih ?_ _ ?_ (matchesFilter_nil _)
    · rw [hpath]; simp
    · rw [hgr]; exact hd

theorem beginsWith_iff {n h : Name} :
    beginsWith n h = true ↔ ∃ suf, h = n ++ suf := by
  induction n generalizing h with
  | nil => simp [beginsWith]
  | cons a as ih =>
    cases h with
    | nil =>
      simp [beginsWith]
    | cons b bs =>
      simp only [beginsWith, Bool.and_eq_true, beq_iff_eq]
      constructor
      · rintro ⟨rfl, h2⟩
        obtain ⟨suf, rfl⟩ := ih.mp h2
        exact ⟨suf, rfl⟩
      · rintro ⟨suf, heq⟩
        injection heq with h1 h2
        subst h1
        exact ⟨rfl, ih.mpr ⟨suf, h2⟩⟩

theorem containsSeq_iff {n h : Name} :
    containsSeq n h = true ↔ ∃ pre suf, h = pre ++ n ++ suf := by
  induction h with
  | nil =>
    simp only [containsSeq, List.isEmpty_iff]
    constructor
    · rintro rfl
      exact ⟨[], [], rfl⟩
    · rintro ⟨pre, suf, heq⟩
      rcases List.append_eq_nil.mp (List.append_eq_nil.mp heq.symm).1 with ⟨_, h2⟩
      exact h2
  | cons c t ih =>
    simp only [containsSeq, Bool.or_eq_true]
    constructor
    · rintro (h2 | h2)
      · obtain ⟨suf, heq⟩ := beginsWith_iff.mp h2
        exact ⟨[], suf, by simpa using heq⟩
      · obtain ⟨pre, suf, heq⟩ := ih.mp h2
        exact ⟨c :: pre, suf, by simp [heq]⟩
    · rintro ⟨pre, suf, heq⟩
      cases pre with
      | nil =>
        left
        exact beginsWith_iff.mpr ⟨suf, by simpa using heq⟩
      | cons p ps =>
        right
        refine ih.mpr ⟨ps, suf, ?_⟩
        injection heq

theorem mem_renderPath {a : Name} {l : List Name} (h : a ∈ l) :
    ∃ pre suf, renderPath l = pre ++ a ++ suf := by
  induction l with
  | nil => exact absurd h (by simp)
  | cons x xs ih =>
    cases xs with
    | nil =>
      rcases List.mem_singleton.mp h with rfl
      exact ⟨[], [], by simp [renderPath, List.intersperse]⟩
    | cons y ys =>
      rcases List.mem_cons.mp h with rfl | h2
      · refine ⟨[], cycleSep ++ renderPath (y :: ys), ?_⟩
        show renderPath (a :: y :: ys) = _
        unfold renderPath
        rw [List.intersperse_cons_cons]
        simp [renderPath]
      · obtain ⟨pre, suf, heq⟩ := ih h2
        refine ⟨x ++ cycleSep ++ pre, suf, ?_⟩
        show renderPath (x :: y :: ys) = _
        unfold renderPath
        rw [List.intersperse_cons_cons]
        show x ++ (cycleSep ++ (List.intersperse cycleSep (y :: ys)).join) = _
        rw [show (List.intersperse cycleSep (y :: ys)).join = renderPath (y :: ys) from rfl]
        rw [heq]
        simp

theorem containsSeq_renderPath {a : Name} {l : List Name} (h : a ∈ l) :
    containsSeq a (renderPath l) = true := by
  obtain ⟨pre, suf, heq⟩ := mem_renderPath h
  exact containsSeq_iff.mpr ⟨pre, suf, heq⟩

theorem recordCycle_mem (pkg : Name) (s : DfsState) :
    renderPath (s.path ++ [pkg]) ∈ (recordCycle pkg s).cycles := by
  unfold recordCycle
  by_cases hc : s.cycles.contains (renderPath (s.path ++ [pkg])) = true
  · rw [if_pos hc]
    exact name_contains_iff.mp hc
  · rw [if_neg hc]
    exact List.mem_append_right _ (List.mem_singleton.mpr rfl)

theorem depsLoop_records (filt parent : Name) (fuel : Nat) :
    ∀ ds s s',
      depsLoop (fun d st2 => dfsAux filt fuel d st2) filt parent ds s = some s' →
      ∀ d ∈ ds, matchesFilter filt d = false → d ∈ s.path →
        renderPath (s.path ++ [d]) ∈ s'.cycles := by
  intro ds
  induction ds with
  | nil => intro s s' _ d hd; exact absurd hd (by simp)
  | cons d0 ds ih =>
    intro s s' h d hd hnfd hdp
    simp only [depsLoop] at h
    cases hst : dfsAux filt fuel d0 s with
    | none => rw [hst] at h; exact absurd h (by simp)
    | some s1 =>
      simp only [hst] at h
      have hle1 : StateLe s s1 := dfsAux_stateLe filt fuel d0 s s1 hst
      rcases List.mem_cons.mp hd with rfl | hd2
      · -- the step on d itself hits the on-path branch and records the cycle
        have hrec : renderPath (s.path ++ [d]) ∈ s1.cycles := by
          cases fuel with
          | zero => exact absurd hst (by simp [dfsAux])
          | succ fuel2 =>
            unfold dfsAux at hst
            rw [if_neg (by simp [hnfd]),
              if_pos (name_contains_iff.mpr hdp)] at hst
            injection hst with hst
            rw [← hst]
            exact recordCycle_mem d s
        by_cases hfd : matchesFilter filt d = true
        · rw [if_pos hfd] at h
          exact (depsLoop_stateLe filt parent fuel ds _ _ h).2.2.2 hrec
        · rw [if_neg hfd] at h
          exact (depsLoop_stateLe filt parent fuel ds _ _ h).2.2.2 hrec
      · -- later element: the path is unchanged by the step and the edge
        have hpath1 : s1.path = s.path := hle1.2.1
        by_cases hfd : matchesFilter filt d0 = true
        · rw [if_pos hfd] at h
          have := ih s1 s' h d hd2 hnfd (hpath1 ▸ hdp)
          rw [hpath1] at this
          exact this
        · rw [if_neg hfd] at h
          have := ih (addEdge parent d0 s1) s' h d hd2 hnfd
            (show d ∈ (addEdge parent d0 s1).path from hpath1 ▸ hdp)
          rw [show (addEdge parent d0 s1).path = s1.path from rfl, hpath1] at this
          exact this

theorem dfsAux_blacksafe :
    ∀ fuel pkg s s', DfsInv s → BlackSafe s →
      dfsAux [] fuel pkg s = some s' → BlackSafe s' := by
  intro fuel
  induction fuel with
  | zero => intro pkg s s' _ _ h; exact absurd h (by simp [dfsAux])
  | succ fuel ih =>
    intro pkg s s' hinv hbs h
    unfold dfsAux at h
    rw [if_neg (by simp [matchesFilter_nil])] at h
    by_cases hp : s.path.contains pkg = true
    · rw [if_pos hp] at h
      injection h with h
      subst h
      intro A B hBA hAB hAv hAnp
      rw [(recordCycle_fields pkg s).1] at hAv
      rw [(recordCycle_fields pkg s).2.1] at hAnp
      rw [show (recordCycle pkg s).graph = s.graph from
        (recordCycle_fields pkg s).2.2.2] at hBA hAB
      obtain ⟨r, hr, hcA, hcB⟩ := hbs A B hBA hAB hAv hAnp
      exact ⟨r, (recordCycle_stateLe pkg s).2.2.2 hr, hcA, hcB⟩
    · rw [if_neg hp] at h
      by_cases hvst : s.visited.contains pkg = true
      · rw [if_pos hvst] at h
        injection h with h
        subst h
        exact hbs
      · rw [if_neg hvst] at h
        have hnv : pkg ∉ s.visited := fun hmem => hvst (name_contains_iff.mpr hmem)
        cases hloop : depsLoop (fun d st2 => dfsAux [] fuel d st2) [] pkg
            (dictGetD s.graph pkg) (pushState pkg s) with
        | none => rw [hloop] at h; exact absurd h (by simp)
        | some s2 =>
          rw [hloop] at h
          injection h with h
          subst h
          have hbs1 : BlackSafe (pushState pkg s) := by
            intro A B hBA hAB hAv hAnp
            rcases List.mem_cons.mp hAv with rfl | hAv2
            · exact absurd (List.mem_append_right _ (List.mem_singleton.mpr rfl)) hAnp
            · have hAnp2 : A ∉ s.path := fun hh => hAnp (List.mem_append_left _ hh)
              exact hbs A B hBA hAB hAv2 hAnp2
          have hloopinv := depsLoop_ind _ [] pkg
            (fun s3 => DfsInv s3 ∧ BlackSafe s3) (fun _ _ => True)
            (fun _ => trivial) (fun _ _ => trivial) ?_ ?_
            _ _ _ ⟨pushState_inv hinv hnv, hbs1⟩ hloop
          · obtain ⟨hinv2, hbs2⟩ := hloopinv.1
            have hle : StateLe (pushState pkg s) s2 :=
              depsLoop_stateLe [] pkg fuel _ _ _ hloop
            have hpath2 : s2.path = s.path ++ [pkg] := hle.2.1
            have hgr2 : s2.graph = s.graph := hle.1
            intro A B hBA hAB hAv hAnp
            have hAnp' : A ∉ s.path := by
              intro hh
              apply hAnp
              show A ∈ s2.path.dropLast
              rw [hpath2]
              simpa using hh
            have hBAg : B ∈ dictGetD s.graph A := by rw [← hgr2]; exact hBA
            have hABg : A ∈ dictGetD s.graph B := by rw [← hgr2]; exact hAB
            by_cases hvp : A = pkg
            · subst hvp
              by_cases hBpath : B ∈ s2.path
              · -- B was on the stack when its step ran: a record exists
                have hBp1 : B ∈ (pushState A s).path := by
                  rw [show (pushState A s).path = s.path ++ [A] from rfl, ← hpath2]
                  exact hBpath
                have hrec := depsLoop_records [] A fuel _ _ _ hloop B hBAg
                  (matchesFilter_nil B) hBp1
                refine ⟨renderPath ((pushState A s).path ++ [B]), hrec, ?_, ?_⟩
                · refine containsSeq_renderPath ?_
                  refine List.mem_append_left _ ?_
                  exact List.mem_append_right _ (List.mem_singleton.mpr rfl)
                · exact containsSeq_renderPath
                    (List.mem_append_right _ (List.mem_singleton.mpr rfl))
              · -- B finished inside the loop: it is black in s2
                have hBv : B ∈ s2.visited :=
                  depsLoop_visits [] A fuel _ _ _ (pushState_inv hinv hnv) hloop
                    B hBAg (matchesFilter_nil B)
                obtain ⟨r, hr, hcB, hcA⟩ := hbs2 B A hAB hBA hBv hBpath
                exact ⟨r, hr, hcA, hcB⟩
            · have hAnp2 : A ∉ s2.path := by
                rw [hpath2]
                intro hh
                rcases List.mem_append.mp hh with h2 | h2
                · exact hAnp' h2
                · exact hvp (List.mem_singleton.mp h2)
              exact hbs2 A B hBA hAB hAv hAnp2
          · intro d s3 s3' hst h3
            exact ⟨⟨dfsAux_inv [] fuel d s3 s3' h3.1 hst,
              ih d s3 s3' h3.1 h3.2 hst⟩, trivial⟩
          · intro d s3 h3 _
            exact ⟨⟨addEdge_inv h3.1, h3.2⟩, trivial⟩

/-- Claim C4 (counterexample): an adjacency source containing the directed
cycle `A→B→A` that is not reachable from the traversal root produces an EMPTY
cycle list (and no graph entries for the cycle members), refuting the claim
for arbitrary adjacency sources. -/
theorem dfs_two_cycle_cex :
    "B".data ∈ dictGetD [("R".data, []), ("A".data, ["B".data]),
      ("B".data, ["A".data])] "A".data ∧
    "A".data ∈ dictGetD [("R".data, []), ("A".data, ["B".data]),
      ("B".data, ["A".data])] "B".data ∧
    dfs_build_graph "R".data [("R".data, []), ("A".data, ["B".data]),
        ("B".data, ["A".data])] [] =
      some (DfsReturn.pair [("R".data, [])] []) := by
  decide

/-- Claim C4 (amended): `dfs_build_graph` terminates on every input (its
recursion bound is never exhausted); the collected cycle list never contains
two records with the same rendered path string; with no filter active every
node reachable from the root has an entry in the returned graph; and if the
adjacency source contains a directed cycle `A→B→A` with `A` reachable from
the root, the cycle list is non-empty and some record mentions both `A` and
`B`. -/
theorem dfs_terminates_reports_reachable_cycles :
    (∀ graph root filt, (dfs_build_graph root graph filt).isSome = true) ∧
    (∀ graph root filt res cyc,
      dfs_build_graph root graph filt = some (DfsReturn.pair res cyc) → cyc.Nodup) ∧
    (∀ graph root res cyc,
      dfs_build_graph root graph [] = some (DfsReturn.pair res cyc) →
      ∀ n, Reaches graph root n → ∃ l, dictLookup res n = some l) ∧
    (∀ graph root res cyc A B,
      dfs_build_graph root graph [] = some (DfsReturn.pair res cyc) →
      B ∈ dictGetD graph A → A ∈ dictGetD graph B → Reaches graph root A →
      cyc ≠ [] ∧ ∃ r ∈ cyc, containsSeq A r = true ∧ containsSeq B r = true) := by
  refine ⟨fun graph root filt => dfs_build_graph_total root graph filt, ?_, ?_, ?_⟩
  · intro graph root filt res cyc h
    obtain ⟨st, _, _, hcyc, _, _, hinv, _, _, _⟩ := dfs_build_graph_pair h
    rw [← hcyc]
    exact hinv.2.2.2.2
  · intro graph root res cyc h n hn
    obtain ⟨st, hres, hst, _, _, _, hinv, _, _, _⟩ := dfs_build_graph_pair h
    have hv : n ∈ st.visited := dfs_reaches_visited hres n hn
    obtain ⟨l, hl⟩ := hinv.2.1 n hv
    exact ⟨l, by rw [← hst]; exact hl⟩
  · intro graph root res cyc A B h hBA hAB hreach
    obtain ⟨st, hres, _, hcyc, hgr, hpath, hinv, _, _, _⟩ := dfs_build_graph_pair h
    have hAv : A ∈ st.visited := dfs_reaches_visited hres A hreach
    have hbs : BlackSafe st := by
      refine dfsAux_blacksafe (dfsFuelBound graph) root (initState graph) st
        (initState_inv graph) ?_ hres
      intro A2 B2 _ _ hv _
      exact absurd hv (by simp [initState])
    have hAnp : A ∉ st.path := by rw [hpath]; simp
    obtain ⟨r, hr, hcA, hcB⟩ := hbs A B (by rw [hgr]; exact hBA)
      (by rw [hgr]; exact hAB) hAv hAnp
    rw [← hcyc]
    refine ⟨?_, r, hr, hcA, hcB⟩
    intro hnil
    rw [hnil] at hr
    exact absurd hr (by simp)

/-- Witness for `dfs_terminates_reports_reachable_cycles` at the two-node
cycle reachable from its root. -/
theorem dfs_terminates_reports_reachable_cycles_witness :
    (["A -> B -> A".data] : List Name) ≠ [] ∧
    ∃ r ∈ (["A -> B -> A".data] : List Name),
      containsSeq "A".data r = true ∧ containsSeq "B".data r = true :=
  dfs_terminates_reports_reachable_cycles.2.2.2
    [("A".data, ["B".data]), ("B".data, ["A".data])] "A".data
    [("A".data, ["B".data]), ("B".data, ["A".data])] ["A -> B -> A".data]
    "A".data "B".data (by decide) (by decide) (by decide) (Reaches.refl "A".data)

/-! ### Claim C1: install order direction -/

/-- Claim C1 (counterexample): for the graph `{A:[B,C], B:[C], C:[]}` with
start node `A` and no filter, the install order returned by
`topological_sort` is `[A, B, C]` — the root comes FIRST — not the claimed
dependency-first order `[C, B, A]`. -/
theorem topo_sort_scenario_cex :
    topological_sort [("A".data, ["B".data, "C".data]), ("B".data, ["C".data]),
        ("C".data, [])] "A".data [] = some ["A".data, "B".data, "C".data] ∧
    (["A".data, "B".data, "C".data] : List Name) ≠
      ["C".data, "B".data, "A".data] := by
  decide

theorem lookupInt_decrKey_self (m : List (Name × Int)) (k : Name) :
    lookupInt (decrKey m k) k = (lookupInt m k).map (fun n => n - 1) := by
  show lookupInt (m.map (fun e => if e.1 = k then (e.1, e.2 - 1) else e)) k = _
  have := @dictLookup_modify_self Int m k (fun n => n - 1)
  exact this

theorem lookupInt_decrKey_ne (m : List (Name × Int)) {k v : Name} (h : k ≠ v) :
    lookupInt (decrKey m k) v = lookupInt m v := by
  show lookupInt (m.map (fun e => if e.1 = k then (e.1, e.2 - 1) else e)) v = _
  exact @dictLookup_modify_ne Int m k v (fun n => n - 1) h

theorem decrKey_keys (m : List (Name × Int)) (k : Name) :
    (decrKey m k).map (fun e => e.1) = m.map (fun e => e.1) := by
  show (m.map (fun e => if e.1 = k then (e.1, e.2 - 1) else e)).map (fun e => e.1) = _
  exact @modify_keys Int m k (fun n => n - 1)

theorem lookupInt_incrKey (m : List (Name × Int)) (k v : Name) :
    lookupInt (incrKey m k) v =
      if v = k then some ((lookupInt m k).getD 0 + 1) else lookupInt m v := by
  unfold incrKey
  by_cases hfind : (m.find? (fun e => decide (e.1 = k))).isSome = true
  · rw [if_pos hfind]
    obtain ⟨e, he⟩ := Option.isSome_iff_exists.mp hfind
    have hlk : lookupInt m k = some e.2 := by
      unfold lookupInt
      rw [he]
      rfl
    by_cases hvk : v = k
    · subst hvk
      rw [if_pos rfl]
      have := @dictLookup_modify_self Int m v (fun n => n + 1)
      show lookupInt (m.map (fun e => if e.1 = v then (e.1, e.2 + 1) else e)) v = _
      rw [show lookupInt (m.map (fun e => if e.1 = v then (e.1, e.2 + 1) else e)) v =
        (lookupInt m v).map (fun n => n + 1) from this, hlk]
      rfl
    · rw [if_neg hvk]
      exact @dictLookup_modify_ne Int m k v (fun n => n + 1) (fun hh => hvk hh.symm)
  · rw [if_neg hfind]
    have hlk : lookupInt m k = none := by
      unfold lookupInt
      cases hf : m.find? (fun e => decide (e.1 = k)) with
      | none => rfl
      | some e => rw [hf] at hfind; simp at hfind
    by_cases hvk : v = k
    · subst hvk
      rw [if_pos rfl, hlk]
      show lookupInt (m ++ [(v, 1)]) v = some 1
      have := @dictLookup_append_self Int m v 1 hlk
      exact this
    · rw [if_neg hvk]
      exact @dictLookup_append_right_ne Int m k v 1 (fun hh => hvk hh.symm)

theorem lookupInt_foldl_incr (ds : List Name) :
    ∀ (m : List (Name × Int)) (v : Name),
      lookupInt (ds.foldl incrKey m) v =
        if lookupInt m v = none ∧ ds.count v = 0 then none
        else some ((lookupInt m v).getD 0 + (ds.count v : Int)) := by
  induction ds with
  | nil =>
    intro m v
    cases hl : lookupInt m v with
    | none => simp [hl]
    | some n => simp [hl]
  | cons d ds ih =>
    intro m v
    rw [show (d :: ds).foldl incrKey m = ds.foldl incrKey (incrKey m d) from rfl]
    rw [ih (incrKey m d) v, lookupInt_incrKey m d v]
    by_cases hvd : v = d
    · subst hvd
      have hcnt : (v :: ds).count v = ds.count v + 1 := by
        simp [List.count_cons]
      rw [if_pos rfl, hcnt]
      rw [if_neg (by simp)]
      cases hl : lookupInt m v with
      | none => simp; omega
      | some n => simp; omega
    · have hdv : ¬ d = v := fun hh => hvd hh.symm
      have hcnt : (d :: ds).count v = ds.count v := by
        simp [List.count_cons, hdv]
      rw [if_neg hvd, hcnt]

theorem lookupInt_base (g : List (Name × List Name)) (v : Name) :
    ∀ n, lookupInt (g.map (fun e => (e.1, (0 : Int)))) v = some n → n = 0 := by
  induction g with
  | nil => intro n h; exact absurd h (by simp [lookupInt, List.find?])
  | cons e g' ih =>
    intro n h
    rw [List.map_cons] at h
    rw [show lookupInt ((e.1, (0 : Int)) :: g'.map (fun e => (e.1, (0 : Int)))) v =
      if ((e.1, (0 : Int)) : Name × Int).1 = v then some ((e.1, (0 : Int)) : Name × Int).2
      else lookupInt (g'.map (fun e => (e.1, (0 : Int)))) v from
      dictLookup_cons _ _ v] at h
    by_cases he : e.1 = v
    · rw [if_pos he] at h
      injection h with h
      exact h.symm
    · rw [if_neg he] at h
      exact ih n h

theorem initInDeg_eq_fold (g : List (Name × List Name)) :
    initInDeg g = ((g.map (fun e => e.2)).join).foldl incrKey
      (g.map (fun e => (e.1, (0 : Int)))) := by
  unfold initInDeg
  rw [← List.foldl_map (fun e : Name × List Name => e.2)
    (fun m l => l.foldl incrKey m)]
  generalize g.map (fun e => (e.1, (0 : Int))) = base
  generalize g.map (fun e : Name × List Name => e.2) = L
  induction L generalizing base with
  | nil => rfl
  | cons l L ih =>
    rw [List.foldl_cons, ih, show (l :: L).join = l ++ L.join from rfl,
      List.foldl_append]

theorem initInDeg_val (g : List (Name × List Name)) (v : Name) :
    ∀ n, lookupInt (initInDeg g) v = some n → n = (totalIn g v : Int) := by
  intro n h
  rw [initInDeg_eq_fold, lookupInt_foldl_incr] at h
  by_cases hc : lookupInt (g.map (fun e => (e.1, (0 : Int)))) v = none ∧
      ((g.map (fun e => e.2)).join).count v = 0
  · rw [if_pos hc] at h
    exact absurd h (by simp)
  · rw [if_neg hc] at h
    injection h with h
    subst h
    unfold totalIn
    cases hl : lookupInt (g.map (fun e => (e.1, (0 : Int)))) v with
    | none => simp
    | some n0 =>
      rw [lookupInt_base g v n0 hl]
      simp

theorem map_congr_mem {α β : Type} {l : List α} {f g : α → β}
    (h : ∀ a ∈ l, f a = g a) : l.map f = l.map g := by
  induction l with
  | nil => rfl
  | cons a l ih =>
    rw [List.map_cons, List.map_cons, h a (List.mem_cons_self a l),
      ih (fun a2 ha2 => h a2 (List.mem_cons_of_mem a ha2))]

theorem dictGetD_cons (e : Name × List Name) (g : List (Name × List Name)) (u : Name) :
    dictGetD (e :: g) u = if e.1 = u then e.2 else dictGetD g u := by
  unfold dictGetD
  rw [dictLookup_cons]
  by_cases he : e.1 = u
  · rw [if_pos he, if_pos he]
    rfl
  · rw [if_neg he, if_neg he]

theorem totalIn_cons (e0 : Name × List Name) (g' : List (Name × List Name)) (v : Name) :
    totalIn (e0 :: g') v = e0.2.count v + totalIn g' v := by
  unfold totalIn
  rw [List.map_cons,
    show (e0.2 :: g'.map (fun e => e.2)).join = e0.2 ++ (g'.map (fun e => e.2)).join
      from rfl, List.count_append]

theorem sum_dictGet_bound :
    ∀ (g : List (Name × List Name)), (g.map (fun e => e.1)).Nodup →
    ∀ (S : List Name), S.Nodup → ∀ v : Name,
      ((S.map (fun u => (dictGetD g u).count v)).sum ≤ totalIn g v) ∧
      (∀ e ∈ g, e.1 ∉ S →
        (S.map (fun u => (dictGetD g u).count v)).sum + e.2.count v ≤ totalIn g v) := by
  intro g
  induction g with
  | nil =>
    intro _ S _ v
    have hz : S.map (fun u => (dictGetD ([] : List (Name × List Name)) u).count v) =
        S.map (fun _ => (0 : Nat)) :=
      map_congr_mem (fun u _ => rfl)
    constructor
    · rw [hz]
      simp [totalIn]
    · intro e he
      exact absurd he (by simp)
  | cons e0 g' ihg =>
    intro hg S hS v
    obtain ⟨hk0, hg'⟩ := List.nodup_cons.mp
      (show (e0.1 :: g'.map (fun e => e.1)).Nodup from hg)
    have htot : totalIn (e0 :: g') v = e0.2.count v + totalIn g' v :=
      totalIn_cons e0 g' v
    by_cases hmem : e0.1 ∈ S
    · obtain ⟨S1, S2, rfl⟩ := List.append_of_mem hmem
      have hnodup2 := List.nodup_middle.mp hS
      obtain ⟨hnotmem, hnd12⟩ := List.nodup_cons.mp hnodup2
      have ih := ihg hg' (S1 ++ S2) hnd12 v
      have hS1 : ∀ u ∈ S1, (dictGetD (e0 :: g') u).count v = (dictGetD g' u).count v := by
        intro u hu
        rw [dictGetD_cons,
          if_neg (fun hh => hnotmem (by rw [hh]; exact List.mem_append_left _ hu))]
      have hS2 : ∀ u ∈ S2, (dictGetD (e0 :: g') u).count v = (dictGetD g' u).count v := by
        intro u hu
        rw [dictGetD_cons,
          if_neg (fun hh => hnotmem (by rw [hh]; exact List.mem_append_right _ hu))]
      have hsum : ((S1 ++ e0.1 :: S2).map
            (fun u => (dictGetD (e0 :: g') u).count v)).sum =
          ((S1 ++ S2).map (fun u => (dictGetD g' u).count v)).sum + e0.2.count v := by
        rw [List.map_append, List.sum_append, List.map_cons, List.sum_cons,
          dictGetD_cons, if_pos rfl, map_congr_mem hS1, map_congr_mem hS2,
          List.map_append, List.sum_append]
        omega
      constructor
      · rw [hsum, htot]
        have := ih.1
        omega
      · intro e he hne
        rcases List.mem_cons.mp he with rfl | he2
        · exact absurd (List.mem_append_right _ (List.mem_cons_self _ _)) hne
        · have hneS : e.1 ∉ S1 ++ S2 := by
            intro hh
            apply hne
            rcases List.mem_append.mp hh with h2 | h2
            · exact List.mem_append_left _ h2
            · exact List.mem_append_right _ (List.mem_cons_of_mem _ h2)
          have := ih.2 e he2 hneS
          rw [hsum, htot]
          omega
    · have hsame : ∀ u ∈ S, (dictGetD (e0 :: g') u).count v = (dictGetD g' u).count v := by
        intro u hu
        rw [dictGetD_cons, if_neg (fun hh => hmem (by rw [hh]; exact hu))]
      have ih := ihg hg' S hS v
      rw [map_congr_mem hsame]
      constructor
      · rw [htot]
        have := ih.1
        omega
      · intro e he hne
        rcases List.mem_cons.mp he with rfl | he2
        · rw [htot]
          have := ih.1
          omega
        · have := ih.2 e he2 hne
          rw [htot]
          omega

theorem count_cons_ne {d v : Name} (h : ¬ v = d) (ds : List Name) :
    (d :: ds).count v = ds.count v := by
  have hdv : ¬ d = v := fun hh => h hh.symm
  rw [List.count_cons]
  simp [hdv]

theorem nodup_append_singleton {l : List Name} {a : Name} (hl : l.Nodup)
    (ha : a ∉ l) : (l ++ [a]).Nodup := by
  simp [List.nodup_append, hl, ha]

theorem processNeighbors_inv (filt : Name) (g : List (Name × List Name))
    (hg : (g.map (fun e => e.1)).Nodup) :
    ∀ (ds : List Name) (s : KState), s.graph = g →
      (∀ v, lookupInt s.inDeg v = (lookupInt (initInDeg g) v).map
        (fun n0 => n0 - (resCnt s v : Int) + (ds.count v : Int))) →
      (s.order ++ s.queue).Nodup →
      (∀ v ∈ s.order ++ s.queue, ∃ n : Int, lookupInt s.inDeg v = some n ∧ n ≤ 0) →
      (∀ v ∈ s.queue, ∀ e ∈ g, v ∈ e.2 → e.1 ∈ s.order) →
      (∀ v ∈ s.order, ∀ e ∈ g, v ∈ e.2 → [e.1, v].Sublist s.order) →
      KahnInv g (processNeighbors filt ds s) := by
  intro ds
  induction ds with
  | nil =>
    intro s hgr heq hnd hbd hqp hop
    refine ⟨hgr, ?_, hnd, hbd, hqp, hop⟩
    intro v
    have := heq v
    simpa using this
  | cons d ds' ih =>
    intro s hgr heq hnd hbd hqp hop
    simp only [processNeighbors]
    have heq2 : ∀ v, lookupInt (decrKey s.inDeg d) v =
        (lookupInt (initInDeg g) v).map
          (fun n0 => n0 - (resCnt s v : Int) + (ds'.count v : Int)) := by
      intro v
      by_cases hvd : v = d
      · subst hvd
        rw [lookupInt_decrKey_self, heq v]
        cases hinit : lookupInt (initInDeg g) v with
        | none => simp
        | some n0 =>
          simp only [Option.map_some']
          congr 1
          rw [List.count_cons_self]
          push_cast
          ring
      · rw [lookupInt_decrKey_ne _ (fun hh => hvd hh.symm), heq v,
          count_cons_ne hvd ds']
    by_cases h0 : lookupInt (decrKey s.inDeg d) d = some 0
    · rw [if_pos h0]
      by_cases hmf : matchesFilter filt d = true
      · rw [if_pos hmf]
        exact ih _ hgr heq2 hnd
          (fun v hv => by
            obtain ⟨n, hn, hle⟩ := hbd v hv
            by_cases hvd : v = d
            · subst hvd
              exact ⟨0, h0, le_refl 0⟩
            · exact ⟨n, by rw [lookupInt_decrKey_ne _ (fun hh => hvd hh.symm)]; exact hn,
                hle⟩)
          hqp hop
      · rw [if_neg hmf]
        have hdnotmem : d ∉ s.order ++ s.queue := by
          intro hmem
          obtain ⟨n, hn, hle⟩ := hbd d hmem
          rw [lookupInt_decrKey_self, hn] at h0
          simp only [Option.map_some'] at h0
          injection h0 with h0
          omega
        have hndnew : (s.order ++ (s.queue ++ [d])).Nodup := by
          rw [← List.append_assoc]
          exact nodup_append_singleton hnd hdnotmem
        have hpredd : ∀ e ∈ g, d ∈ e.2 → e.1 ∈ s.order := by
          intro e he hde
          by_contra hne
          have hbound := (sum_dictGet_bound g hg s.order
            (List.Nodup.of_append_left hnd) d).2 e he hne
          have hcnt1 : 1 ≤ e.2.count d := by
            have := List.count_eq_zero.not.mpr (by simpa using hde)
            omega
          have := heq2 d
          rw [h0] at this
          cases hinit : lookupInt (initInDeg g) d with
          | none => rw [hinit] at this; exact absurd this (by simp)
          | some n0 =>
            rw [hinit] at this
            simp only [Option.map_some'] at this
            injection this with this
            have hval := initInDeg_val g d n0 hinit
            subst hval
            have hres : resCnt s d =
                (s.order.map (fun u => (dictGetD g u).count d)).sum := by
              unfold resCnt
              rw [hgr]
            rw [hres] at this
            omega
        refine ih _ hgr heq2 hndnew ?_ ?_ hop
        · intro v hv
          rcases List.mem_append.mp hv with hvo | hvq
          · have hvd : ¬ v = d := fun hh =>
              hdnotmem (hh ▸ List.mem_append_left _ hvo)
            obtain ⟨n, hn, hle⟩ := hbd v (List.mem_append_left _ hvo)
            exact ⟨n, by rw [lookupInt_decrKey_ne _ (fun hh => hvd hh.symm)]; exact hn,
              hle⟩
          · rcases List.mem_append.mp hvq with hvq2 | hvd
            · have hvd : ¬ v = d := fun hh =>
                hdnotmem (hh ▸ List.mem_append_right _ hvq2)
              obtain ⟨n, hn, hle⟩ := hbd v (List.mem_append_right _ hvq2)
              exact ⟨n, by rw [lookupInt_decrKey_ne _ (fun hh => hvd hh.symm)]; exact hn,
                hle⟩
            · rcases List.mem_singleton.mp hvd with rfl
              exact ⟨0, h0, le_refl 0⟩
        · intro v hv
          rcases List.mem_append.mp hv with hvq2 | hvd
          · exact hqp v hvq2
          · rcases List.mem_singleton.mp hvd with rfl
            exact hpredd
    · rw [if_neg h0]
      exact ih _ hgr heq2 hnd
        (fun v hv => by
          obtain ⟨n, hn, hle⟩ := hbd v hv
          by_cases hvd : v = d
          · subst hvd
            refine ⟨n - 1, ?_, by omega⟩
            rw [lookupInt_decrKey_self, hn]
            rfl
          · exact ⟨n, by rw [lookupInt_decrKey_ne _ (fun hh => hvd hh.symm)]; exact hn,
              hle⟩)
        hqp hop

theorem kahnLoop_inv (filt : Name) (g : List (Name × List Name))
    (hg : (g.map (fun e => e.1)).Nodup) :
    ∀ fuel s s', KahnInv g s → kahnLoop filt fuel s = some s' →
      KahnInv g s' ∧ s'.queue = [] := by
  intro fuel
  induction fuel with
  | zero =>
    intro s s' hinv h
    unfold kahnLoop at h
    by_cases hq : s.queue.isEmpty = true
    · rw [if_pos hq] at h
      injection h with h
      subst h
      exact ⟨hinv, List.isEmpty_iff.mp hq⟩
    · rw [if_neg hq] at h
      exact absurd h (by simp)
  | succ fuel ih =>
    intro s s' hinv h
    unfold kahnLoop at h
    cases hq : s.queue with
    | nil =>
      rw [hq] at h
      injection h with h
      subst h
      exact ⟨hinv, hq⟩
    | cons node rest =>
      obtain ⟨hgr, heq, hnd, hbd, hqp, hop⟩ := hinv
      subst hgr
      simp only [hq] at h
      rw [hq] at hnd hbd hqp
      have hs1 : True := trivial
      have hresc : ∀ v,
          resCnt { s with queue := rest, order := s.order ++ [node] } v =
          resCnt s v + (dictGetD s.graph node).count v := by
        intro v
        show ((s.order ++ [node]).map
          (fun u => (dictGetD s.graph u).count v)).sum = _
        rw [List.map_append, List.sum_append]
        unfold resCnt
        simp
      have heq1 : ∀ v,
          lookupInt ({ s with queue := rest, order := s.order ++ [node] } : KState).inDeg v =
          (lookupInt (initInDeg s.graph) v).map
          (fun n0 => n0 -
            (resCnt { s with queue := rest, order := s.order ++ [node] } v : Int) +
            (((dictGetD s.graph node).count v : Nat) : Int)) := by
        intro v
        rw [show ({ s with queue := rest, order := s.order ++ [node] } : KState).inDeg =
          s.inDeg from rfl, heq v]
        cases hinit : lookupInt (initInDeg s.graph) v with
        | none => simp
        | some n0 =>
          simp only [Option.map_some']
          congr 1
          rw [hresc v]
          push_cast
          ring
      have hnd1 : (((s.order ++ [node])) ++ rest).Nodup := by
        rw [List.append_assoc]
        exact hnd
      have hbd1 : ∀ v ∈ (s.order ++ [node]) ++ rest,
          ∃ n : Int, lookupInt s.inDeg v = some n ∧ n ≤ 0 := by
        intro v hv
        refine hbd v ?_
        show v ∈ s.order ++ node :: rest
        rw [List.append_assoc] at hv
        exact hv
      have hqp1 : ∀ v ∈ rest, ∀ e ∈ s.graph, v ∈ e.2 → e.1 ∈ s.order ++ [node] := by
        intro v hv e he hve
        exact List.mem_append_left _ (hqp v (List.mem_cons_of_mem node hv) e he hve)
      have hop1 : ∀ v ∈ s.order ++ [node], ∀ e ∈ s.graph, v ∈ e.2 →
          [e.1, v].Sublist (s.order ++ [node]) := by
        intro v hv e he hve
        rcases List.mem_append.mp hv with hvo | hvn
        · exact (hop v hvo e he hve).trans (List.sublist_append_left _ _)
        · rcases List.mem_singleton.mp hvn with rfl
          have he1 : e.1 ∈ s.order := hqp v (List.mem_cons_self v rest) e he hve
          show ([e.1] ++ [v]).Sublist (s.order ++ [v])
          exact List.Sublist.append (List.singleton_sublist.mpr he1)
            (List.Sublist.refl _)
      have hpn := processNeighbors_inv filt s.graph hg (dictGetD s.graph node)
        { s with queue := rest, order := s.order ++ [node] }
        rfl heq1 hnd1 hbd1 hqp1 hop1
      exact ih _ s' hpn h

theorem processNeighbors_min (filt : Name) :
    ∀ (ds : List Name) (s : KState), (s.order ++ s.queue).Nodup →
      (∀ v ∈ s.order ++ s.queue, ∃ n : Int, lookupInt s.inDeg v = some n ∧ n ≤ 0) →
      ((processNeighbors filt ds s).order = s.order ∧
        (processNeighbors filt ds s).inDeg.map (fun e => e.1) =
          s.inDeg.map (fun e => e.1) ∧
        ((processNeighbors filt ds s).order ++ (processNeighbors filt ds s).queue).Nodup ∧
        (∀ v ∈ (processNeighbors filt ds s).order ++ (processNeighbors filt ds s).queue,
          ∃ n : Int, lookupInt (processNeighbors filt ds s).inDeg v = some n ∧ n ≤ 0)) := by
  intro ds
  induction ds with
  | nil =>
    intro s hnd hbd
    exact ⟨rfl, rfl, hnd, hbd⟩
  | cons d ds' ih =>
    intro s hnd hbd
    simp only [processNeighbors]
    by_cases h0 : lookupInt (decrKey s.inDeg d) d = some 0
    · rw [if_pos h0]
      by_cases hmf : matchesFilter filt d = true
      · rw [if_pos hmf]
        have := ih { s with inDeg := decrKey s.inDeg d } hnd
          (fun v hv => by
            obtain ⟨n, hn, hle⟩ := hbd v hv
            by_cases hvd : v = d
            · subst hvd
              exact ⟨0, h0, le_refl 0⟩
            · exact ⟨n, by
                show lookupInt (decrKey s.inDeg d) v = some n
                rw [lookupInt_decrKey_ne _ (fun hh => hvd hh.symm)]
                exact hn, hle⟩)
        refine ⟨this.1, ?_, this.2.2⟩
        rw [this.2.1]
        exact decrKey_keys s.inDeg d
      · rw [if_neg hmf]
        have hdnotmem : d ∉ s.order ++ s.queue := by
          intro hmem
          obtain ⟨n, hn, hle⟩ := hbd d hmem
          rw [lookupInt_decrKey_self, hn] at h0
          simp only [Option.map_some'] at h0
          injection h0 with h0
          omega
        have := ih { s with inDeg := decrKey s.inDeg d, queue := s.queue ++ [d] }
          (by
            show (s.order ++ (s.queue ++ [d])).Nodup
            rw [← List.append_assoc]
            exact nodup_append_singleton hnd hdnotmem)
          (fun v hv => by
            rcases List.mem_append.mp hv with hvo | hvq
            · have hvd : ¬ v = d := fun hh =>
                hdnotmem (hh ▸ List.mem_append_left _ hvo)
              obtain ⟨n, hn, hle⟩ := hbd v (List.mem_append_left _ hvo)
              exact ⟨n, by
                show lookupInt (decrKey s.inDeg d) v = some n
                rw [lookupInt_decrKey_ne _ (fun hh => hvd hh.symm)]
                exact hn, hle⟩
            · rcases List.mem_append.mp hvq with hvq2 | hvd
              · have hvd : ¬ v = d := fun hh =>
                  hdnotmem (hh ▸ List.mem_append_right _ hvq2)
                obtain ⟨n, hn, hle⟩ := hbd v (List.mem_append_right _ hvq2)
                exact ⟨n, by
                  show lookupInt (decrKey s.inDeg d) v = some n
                  rw [lookupInt_decrKey_ne _ (fun hh => hvd hh.symm)]
                  exact hn, hle⟩
              · rcases List.mem_singleton.mp hvd with rfl
                exact ⟨0, h0, le_refl 0⟩)
        refine ⟨this.1, ?_, this.2.2⟩
        rw [this.2.1]
        exact decrKey_keys s.inDeg d
    · rw [if_neg h0]
      have := ih { s with inDeg := decrKey s.inDeg d } hnd
        (fun v hv => by
          obtain ⟨n, hn, hle⟩ := hbd v hv
          by_cases hvd : v = d
          · refine ⟨n - 1, ?_, by omega⟩
            show lookupInt (decrKey s.inDeg d) v = some (n - 1)
            rw [hvd, lookupInt_decrKey_self, ← hvd, hn]
            rfl
          · exact ⟨n, by
              show lookupInt (decrKey s.inDeg d) v = some n
              rw [lookupInt_decrKey_ne _ (fun hh => hvd hh.symm)]
              exact hn, hle⟩)
      refine ⟨this.1, ?_, this.2.2⟩
      rw [this.2.1]
      exact decrKey_keys s.inDeg d

theorem lookupInt_mem_keys {m : List (Name × Int)} {v : Name} {n : Int}
    (h : lookupInt m v = some n) : v ∈ m.map (fun e => e.1) := by
  have h2 : dictLookup m v = some n := h
  exact List.mem_map.mpr ⟨(v, n), dictLookup_isSome_mem h2, rfl⟩

theorem kahnLoop_total (filt : Name) :
    ∀ fuel (s : KState), (s.order ++ s.queue).Nodup →
      (∀ v ∈ s.order ++ s.queue, ∃ n : Int, lookupInt s.inDeg v = some n ∧ n ≤ 0) →
      ((s.inDeg.map (fun e => e.1)).toFinset \ s.order.toFinset).card < fuel →
      (kahnLoop filt fuel s).isSome = true := by
  intro fuel
  induction fuel with
  | zero => intro s _ _ h; omega
  | succ fuel ih =>
    intro s hnd hbd hcard
    unfold kahnLoop
    cases hq : s.queue with
    | nil => rfl
    | cons node rest =>
      rw [hq] at hnd hbd
      have hnd1 : ((s.order ++ [node]) ++ rest).Nodup := by
        rw [List.append_assoc]
        exact hnd
      have hbd1 : ∀ v ∈ (s.order ++ [node]) ++ rest,
          ∃ n : Int, lookupInt s.inDeg v = some n ∧ n ≤ 0 := by
        intro v hv
        refine hbd v ?_
        rw [List.append_assoc] at hv
        exact hv
      have hpmin := processNeighbors_min filt (dictGetD s.graph node)
        { s with queue := rest, order := s.order ++ [node] } hnd1 hbd1
      obtain ⟨hpord, hpkeys, hpnd, hpbd⟩ := hpmin
      refine ih _ hpnd hpbd ?_
      rw [hpkeys, hpord]
      show (((s.inDeg.map (fun e => e.1)).toFinset \
        (s.order ++ [node]).toFinset).card) < fuel
      have hins : (s.order ++ [node]).toFinset = insert node s.order.toFinset := by
        rw [List.toFinset_append]
        show s.order.toFinset ∪ [node].toFinset = _
        rw [show ([node] : List Name).toFinset = {node} from rfl, Finset.union_comm]
        rfl
      rw [hins, Finset.sdiff_insert]
      obtain ⟨n, hn, _⟩ := hbd node (List.mem_append_right _ (List.mem_cons_self _ _))
      have hnodeord : node ∉ s.order := by
        intro hmem
        exact (List.nodup_append.mp hnd).2.2 hmem (List.mem_cons_self node rest)
      have hmem : node ∈ (s.inDeg.map (fun e => e.1)).toFinset \ s.order.toFinset := by
        rw [Finset.mem_sdiff, List.mem_toFinset, List.mem_toFinset]
        exact ⟨lookupInt_mem_keys hn, hnodeord⟩
      rw [Finset.card_erase_of_mem hmem]
      have hpos : 0 < ((s.inDeg.map (fun e => e.1)).toFinset \ s.order.toFinset).card :=
        Finset.card_pos.mpr ⟨node, hmem⟩
      omega

/-- Claim C1 (amended): `topological_sort` always returns an order; the
order never contains duplicates; and it is DEPENDENT-first, not
dependency-first: for every edge `P→D` of the graph, whenever both `P` and
`D` appear in the order, `P`'s position comes BEFORE `D`'s; in particular for
`{A:[B,C], B:[C], C:[]}` with start `A` and no filter the install order is
`[A, B, C]`. -/
theorem topo_sort_dependent_first :
    (∀ graph start filt, (topological_sort graph start filt).isSome = true) ∧
    (∀ graph start filt ord, (graph.map (fun e => e.1)).Nodup →
      topological_sort graph start filt = some ord →
      ord.Nodup ∧ ∀ P D, D ∈ dictGetD graph P → P ∈ ord → D ∈ ord →
        [P, D].Sublist ord) ∧
    topological_sort [("A".data, ["B".data, "C".data]), ("B".data, ["C".data]),
      ("C".data, [])] "A".data [] = some ["A".data, "B".data, "C".data] := by
  have hinit0 : ∀ (graph : List (Name × List Name)) (start : Name),
      ((([] : List Name) ++
        (if lookupInt (initInDeg graph) start = some 0 then [start] else [])).Nodup) ∧
      (∀ v ∈ (([] : List Name) ++
          (if lookupInt (initInDeg graph) start = some 0 then [start] else [])),
        ∃ n : Int, lookupInt (initInDeg graph) v = some n ∧ n ≤ 0) := by
    intro graph start
    by_cases hq : lookupInt (initInDeg graph) start = some 0
    · rw [if_pos hq]
      refine ⟨by simp, ?_⟩
      intro v hv
      rcases List.mem_singleton.mp (by simpa using hv) with rfl
      exact ⟨0, hq, le_refl 0⟩
    · rw [if_neg hq]
      exact ⟨by simp, fun v hv => absurd hv (by simp)⟩
  refine ⟨?_, ?_, by decide⟩
  · intro graph start filt
    show (if matchesFilter filt start then some ([] : List Name)
      else (kahnLoop filt ((initInDeg graph).length + 1)
        { graph := graph, inDeg := initInDeg graph,
          queue := if lookupInt (initInDeg graph) start = some 0 then [start] else [],
          order := [] }).map (fun st => st.order)).isSome = true
    by_cases hf : matchesFilter filt start = true
    · rw [if_pos hf]; rfl
    · rw [if_neg hf]
      obtain ⟨hnd0, hbd0⟩ := hinit0 graph start
      have htot := kahnLoop_total filt ((initInDeg graph).length + 1)
        { graph := graph, inDeg := initInDeg graph,
          queue := if lookupInt (initInDeg graph) start = some 0 then [start] else [],
          order := [] } hnd0 hbd0 ?_
      · cases hk : kahnLoop filt ((initInDeg graph).length + 1)
            { graph := graph, inDeg := initInDeg graph,
              queue := if lookupInt (initInDeg graph) start = some 0 then [start] else [],
              order := [] } with
        | none => rw [hk] at htot; exact absurd htot (by simp)
        | some s' => rfl
      · show (((initInDeg graph).map (fun e => e.1)).toFinset \
          ([] : List Name).toFinset).card < (initInDeg graph).length + 1
        rw [List.toFinset_nil, Finset.sdiff_empty]
        have h1 := List.toFinset_card_le ((initInDeg graph).map (fun e => e.1))
        rw [List.length_map] at h1
        omega
  · intro graph start filt ord hgnodup h
    have h2 : (if matchesFilter filt start then some ([] : List Name)
        else (kahnLoop filt ((initInDeg graph).length + 1)
          { graph := graph, inDeg := initInDeg graph,
            queue := if lookupInt (initInDeg graph) start = some 0 then [start] else [],
            order := [] }).map (fun st => st.order)) = some ord := h
    by_cases hf : matchesFilter filt start = true
    · rw [if_pos hf] at h2
      injection h2 with h2
      subst h2
      exact ⟨List.nodup_nil, fun P D _ hP _ => absurd hP (by simp)⟩
    · rw [if_neg hf] at h2
      obtain ⟨s', hs', hord⟩ := Option.map_eq_some'.mp h2
      have hinv0 : KahnInv graph
          { graph := graph, inDeg := initInDeg graph,
            queue := if lookupInt (initInDeg graph) start = some 0 then [start] else [],
            order := [] } := by
        obtain ⟨hnd0, hbd0⟩ := hinit0 graph start
        refine ⟨rfl, ?_, hnd0, hbd0, ?_, ?_⟩
        · intro v
          show lookupInt (initInDeg graph) v =
            (lookupInt (initInDeg graph) v).map (fun n => n - (((0 : Nat) : Int)))
          cases hinit : lookupInt (initInDeg graph) v with
          | none => rfl
          | some n0 => simp
        · intro v hv e he hve
          exfalso
          have hv1 : v ∈ (if lookupInt (initInDeg graph) start = some 0
            then [start] else []) := hv
          by_cases hq : lookupInt (initInDeg graph) start = some 0
          · rw [if_pos hq] at hv1
            rcases List.mem_singleton.mp hv1 with rfl
            have htot0 : (0 : Int) = (totalIn graph v : Int) :=
              initInDeg_val graph v 0 hq
            have htot0n : totalIn graph v = 0 := by exact_mod_cast htot0.symm
            have hmem : v ∈ (graph.map (fun e => e.2)).join :=
              List.mem_join.mpr ⟨e.2, List.mem_map.mpr ⟨e, he, rfl⟩, hve⟩
            have := List.count_eq_zero.mp htot0n
            exact this hmem
          · rw [if_neg hq] at hv1
            exact absurd hv1 (by simp)
        · intro v hv
          exact absurd (show v ∈ ([] : List Name) from hv) (by simp)
      obtain ⟨⟨hgr', heq', hnd', hbd', hqp', hop'⟩, hqe'⟩ :=
        kahnLoop_inv filt graph hgnodup ((initInDeg graph).length + 1) _ s' hinv0 hs'
      subst hord
      constructor
      · rw [hqe', List.append_nil] at hnd'
        exact hnd'
      · intro P D hD hP hDord
        cases hlk : dictLookup graph P with
        | none =>
          unfold dictGetD at hD
          rw [hlk] at hD
          exact absurd hD (by simp)
        | some l =>
          have hPl : (P, l) ∈ graph := dictLookup_isSome_mem hlk
          have hDl : D ∈ l := by
            unfold dictGetD at hD
            rw [hlk] at hD
            exact hD
          exact hop' D hDord (P, l) hPl hDl

/-- Witness for `topo_sort_dependent_first` at the spec's scenario graph. -/
theorem topo_sort_dependent_first_witness :
    (["A".data, "B".data, "C".data] : List Name).Nodup ∧
    List.Sublist ["A".data, "B".data] ["A".data, "B".data, "C".data] :=
  ⟨(topo_sort_dependent_first.2.1 [("A".data, ["B".data, "C".data]),
      ("B".data, ["C".data]), ("C".data, [])] "A".data []
      ["A".data, "B".data, "C".data] (by decide) (by decide)).1,
    (topo_sort_dependent_first.2.1 [("A".data, ["B".data, "C".data]),
      ("B".data, ["C".data]), ("C".data, [])] "A".data []
      ["A".data, "B".data, "C".data] (by decide) (by decide)).2
      "A".data "B".data (by decide) (by decide) (by decide)⟩

theorem find_append_first {α : Type} {p : α → Bool} {l₁ l₂ : List α} {x : α}
    (h : l₁.find? p = some x) : (l₁ ++ l₂).find? p = some x := by
  induction l₁ with
  | nil => rw [List.find?_nil] at h; exact Option.noConfusion h
  | cons a t ih =>
    cases hp : p a with
    | true =>
      rw [List.find?_cons_of_pos _ hp] at h
      rw [List.cons_append, List.find?_cons_of_pos _ hp]
      exact h
    | false =>
      rw [List.find?_cons_of_neg _ (by simp [hp])] at h
      rw [List.cons_append, List.find?_cons_of_neg _ (by simp [hp])]
      exact ih h

theorem find_append_none {α : Type} {p : α → Bool} {l₁ l₂ : List α}
    (h : l₁.find? p = none) : (l₁ ++ l₂).find? p = l₂.find? p := by
  induction l₁ with
  | nil => rfl
  | cons a t ih =>
    cases hp : p a with
    | true =>
      rw [List.find?_cons_of_pos _ hp] at h
      exact Option.noConfusion h
    | false =>
      rw [List.find?_cons_of_neg _ (by simp [hp])] at h
      rw [List.cons_append, List.find?_cons_of_neg _ (by simp [hp])]
      exact ih h

theorem dictLookup_dictSet_self {α : Type} {m : List (Name × α)} {k : Name} {v : α} :
    dictLookup (dictSet m k v) k = some v := by
  unfold dictSet
  by_cases hs : (m.find? (fun e => decide (e.1 = k))).isSome = true
  · rw [if_pos hs]
    cases hf : m.find? (fun e => decide (e.1 = k)) with
    | none => rw [hf] at hs; exact absurd hs (by simp)
    | some e =>
      have hd : dictLookup m k = some e.2 := by unfold dictLookup; rw [hf]; rfl
      have h2 := @dictLookup_modify_self α m k (fun _ => v)
      rw [hd] at h2
      exact h2
  · rw [if_neg hs]
    refine dictLookup_append_self ?_
    have hf : m.find? (fun e => decide (e.1 = k)) = none := by
      cases hf2 : m.find? (fun e => decide (e.1 = k)) with
      | none => rfl
      | some e => rw [hf2] at hs; exact absurd rfl hs
    unfold dictLookup
    rw [hf]
    rfl

theorem dictLookup_dictSet_ne {α : Type} {m : List (Name × α)} {k k0 : Name} {v : α}
    (h : k ≠ k0) : dictLookup (dictSet m k v) k0 = dictLookup m k0 := by
  unfold dictSet
  by_cases hs : (m.find? (fun e => decide (e.1 = k))).isSome = true
  · rw [if_pos hs]
    exact @dictLookup_modify_ne α m k k0 (fun _ => v) h
  · rw [if_neg hs]
    exact dictLookup_append_right_ne h

theorem dictLookup_foldl_dictSet (k : Name) :
    ∀ (L acc : List (Name × List (Name × Name))),
      dictLookup (L.foldl (fun p kv => dictSet p kv.1 kv.2) acc) k =
        match L.reverse.find? (fun e => decide (e.1 = k)) with
        | some e => some e.2
        | none => dictLookup acc k := by
  intro L
  induction L with
  | nil => intro acc; rfl
  | cons e t ih =>
    intro acc
    simp only [List.foldl_cons]
    rw [ih (dictSet acc e.1 e.2), List.reverse_cons]
    cases hf : t.reverse.find? (fun x => decide (x.1 = k)) with
    | some x =>
      rw [find_append_first hf]
    | none =>
      rw [find_append_none hf]
      by_cases he : e.1 = k
      · have h1 : ([e].find? (fun x => decide (x.1 = k))) = some e :=
          List.find?_cons_of_pos _ (by simp [he])
        rw [h1]
        show dictLookup (dictSet acc e.1 e.2) k = some e.2
        rw [show k = e.1 from he.symm]
        exact dictLookup_dictSet_self
      · have h1 : ([e].find? (fun x => decide (x.1 = k))) = none := by
          rw [List.find?_cons_of_neg _ (by simp [he])]
          rfl
        rw [h1]
        show dictLookup (dictSet acc e.1 e.2) k = dictLookup acc k
        exact dictLookup_dictSet_ne he

theorem parse_foldl_filterMap (L : List Name) :
    ∀ acc : List (Name × List (Name × Name)),
      L.foldl (fun packages block =>
        match processBlock block with
        | some kv => dictSet packages kv.1 kv.2
        | none => packages) acc =
      (L.filterMap processBlock).foldl (fun packages kv => dictSet packages kv.1 kv.2)
        acc := by
  induction L with
  | nil => intro acc; rfl
  | cons b t ih =>
    intro acc
    simp only [List.foldl_cons, List.filterMap_cons]
    cases hp : processBlock b with
    | none => simp only []; exact ih acc
    | some kv => simp only []; exact ih (dictSet acc kv.1 kv.2)

theorem parse_eq_filterMap (text : Name) :
    parse_packages_index text =
      ((splitBlocks (pyStrip text)).filterMap processBlock).foldl
        (fun packages kv => dictSet packages kv.1 kv.2) [] := by
  unfold parse_packages_index
  exact parse_foldl_filterMap (splitBlocks (pyStrip text)) []

theorem blockInfo_skips_aux (L : List Name) :
    ∀ acc : List (Name × Name),
      L.foldl (fun info line =>
        if line.contains ':' then
          dictSet info (pyStrip (line.takeWhile (fun c => c ≠ ':')))
            (pyStrip ((line.dropWhile (fun c => c ≠ ':')).tail))
        else info) acc =
      (L.filter (fun line => line.contains ':')).foldl
        (fun info line =>
          dictSet info (pyStrip (line.takeWhile (fun c => c ≠ ':')))
            (pyStrip ((line.dropWhile (fun c => c ≠ ':')).tail))) acc := by
  induction L with
  | nil => intro acc; rfl
  | cons l t ih =>
    intro acc
    simp only [List.foldl_cons, List.filter_cons]
    by_cases hc : l.contains ':' = true
    · rw [if_pos hc, if_pos hc, List.foldl_cons]
      exact ih _
    · rw [if_neg hc, if_neg hc]
      exact ih acc

/-- Claim C9: `parse_packages_index` raises no error and its lookup is fully
characterised: a key is present in the output exactly when some block of the
re-split input produced it, and the stored record is the LAST such block's
info dict (a repeated key keeps only the last-seen record); a block produces
an entry exactly when its info dict defines both `Package` and `Version`,
the entry being stored under `Package:Architecture` with the architecture
defaulting to `all` when absent; and lines without a colon are silently
skipped when building a block's info dict. -/
theorem parse_index_block_semantics :
    (∀ text k, dictLookup (parse_packages_index text) k =
      (((splitBlocks (pyStrip text)).filterMap processBlock).reverse.find?
        (fun e => decide (e.1 = k))).map (fun e => e.2)) ∧
    (∀ b k v, processBlock b = some (k, v) →
      v = blockInfo b ∧
      ((dictLookup (blockInfo b) "Package".data).isSome = true ∧
        (dictLookup (blockInfo b) "Version".data).isSome = true) ∧
      k = (dictLookup (blockInfo b) "Package".data).getD [] ++
        ':' :: ((dictLookup (blockInfo b) "Architecture".data).getD "all".data)) ∧
    (∀ b, (dictLookup (blockInfo b) "Package".data).isSome = true →
      (dictLookup (blockInfo b) "Version".data).isSome = true →
      (processBlock b).isSome = true) ∧
    (∀ block, blockInfo block =
      ((splitOnChar '\n' block).filter (fun line => line.contains ':')).foldl
        (fun info line =>
          dictSet info (pyStrip (line.takeWhile (fun c => c ≠ ':')))
            (pyStrip ((line.dropWhile (fun c => c ≠ ':')).tail))) []) := by
  refine ⟨?_, ?_, ?_, ?_⟩
  · intro text k
    rw [parse_eq_filterMap, dictLookup_foldl_dictSet k]
    cases hf : ((splitBlocks (pyStrip text)).filterMap processBlock).reverse.find?
        (fun e => decide (e.1 = k)) with
    | none => rfl
    | some x => rfl
  · intro b k v h
    by_cases hP : (dictLookup (blockInfo b) "Package".data).isSome = true ∧
        (dictLookup (blockInfo b) "Version".data).isSome = true
    · have hval : processBlock b =
          some ((dictLookup (blockInfo b) "Package".data).getD [] ++
            ':' :: ((dictLookup (blockInfo b) "Architecture".data).getD "all".data),
            blockInfo b) := by
        show (if (dictLookup (blockInfo b) "Package".data).isSome ∧
            (dictLookup (blockInfo b) "Version".data).isSome then
          some ((dictLookup (blockInfo b) "Package".data).getD [] ++
            ':' :: ((dictLookup (blockInfo b) "Architecture".data).getD "all".data),
            blockInfo b) else none) = _
        rw [if_pos hP]
      rw [hval] at h
      injection h with h
      injection h with h1 h2
      exact ⟨h2.symm, hP, h1.symm⟩
    · have hval : processBlock b = none := by
        show (if (dictLookup (blockInfo b) "Package".data).isSome ∧
            (dictLookup (blockInfo b) "Version".data).isSome then
          some ((dictLookup (blockInfo b) "Package".data).getD [] ++
            ':' :: ((dictLookup (blockInfo b) "Architecture".data).getD "all".data),
            blockInfo b) else none) = none
        rw [if_neg hP]
      rw [hval] at h
      exact Option.noConfusion h
  · intro b h1 h2
    show ((if (dictLookup (blockInfo b) "Package".data).isSome ∧
        (dictLookup (blockInfo b) "Version".data).isSome then
      some ((dictLookup (blockInfo b) "Package".data).getD [] ++
        ':' :: ((dictLookup (blockInfo b) "Architecture".data).getD "all".data),
        blockInfo b) else none)).isSome = true
    rw [if_pos ⟨h1, h2⟩]
    rfl
  · intro block
    unfold blockInfo
    exact blockInfo_skips_aux (splitOnChar '\n' block) []

/-- Witness for `parse_index_block_semantics` on a concrete two-line block:
the block defines `Package` and `Version`, so it is retained under the key
`foo:all` with the defaulted architecture. -/
theorem parse_index_block_semantics_witness :
    processBlock "Package: foo\nVersion: 1.0".data =
      some ("foo:all".data, blockInfo "Package: foo\nVersion: 1.0".data) ∧
    (processBlock "Package: foo\nVersion: 1.0".data).isSome = true := by
  constructor
  · have h2 := (parse_index_block_semantics.2.1 "Package: foo\nVersion: 1.0".data
      "foo:all".data
      [("Package".data, "foo".data), ("Version".data, "1.0".data)] (by decide)).1
    rw [show processBlock "Package: foo\nVersion: 1.0".data =
      some ("foo:all".data,
        [("Package".data, "foo".data), ("Version".data, "1.0".data)]) from by decide,
      h2]
  · exact parse_index_block_semantics.2.2.1 "Package: foo\nVersion: 1.0".data
      (by decide) (by decide)
